import Mathlib

/-!
# m3u8-downloaders: playlist parsing and segment download in `cmd/main.go`

A shallow embedding of `HandlerPOSTDownload` and `HandlerGETStatus`.

* A Go `string` is a byte sequence; it is embedded as a `List Char`, one `Char` per byte
  (`len` is `List.length`, `s[:n]` is `List.take n`, `s[n:]` is `List.drop n`, each guarded by
  the bounds check Go performs at run time).
* The manifest file and the `bufio.Scanner` reading it are embedded as explicit states
  (`File`, `Scanner`), with the buffer arithmetic of `bufio.Scanner.Scan` and the
  `bufio.ScanLines` split function.
* `http.Get`, `os.Create` and `io.Copy` are collaborators; their outcomes are given by a `World`.
* A run-time panic (slice bounds or index out of range) is an explicit outcome.
* Strings that the handlers only assign or print (the job status, the bodies of the answers) are
  Lean strings.
-/

namespace M3u8

/-! ## Go strings -/

/-- A Go string, as its sequence of bytes. -/
abbrev GoString := List Char

/-- The test `len(s) >= len(p) && s[:len(p)] == p`, the shape of every tag test in `main.go`. -/
def startsWith (s p : GoString) : Bool :=
  decide (s.length ≥ p.length) && decide (s.take p.length = p)

/-! ## The manifest file (`os.File`) -/

/-- An open regular file: its bytes and the current read offset. -/
structure File where
  content : List Char
  off : Nat
deriving DecidableEq, Repr

/-- The result of `os.Open` on the stored manifest: offset 0. -/
def File.open (content : List Char) : File := { content := content, off := 0 }

/-- The call `file.Read(p)` with `len(p) = n`: the next `min n remaining` bytes; the empty result
stands for `0, io.EOF` (only called with `n > 0`). -/
def File.Read (f : File) (n : Nat) : List Char × File :=
  let p := (f.content.drop f.off).take n
  (p, { f with off := f.off + p.length })

/-- The call `file.Seek(0, 0)`. -/
def File.Seek0 (f : File) : File := { f with off := 0 }

/-! ## `bufio.Scanner` with `bufio.ScanLines` -/

/-- Initial buffer size of `bufio.Scanner` (`startBufSize`). -/
def startBufSize : Nat := 4096

/-- Maximum token size of `bufio.Scanner` (`bufio.MaxScanTokenSize`). -/
def MaxScanTokenSize : Nat := 64 * 1024

/-- Largest `int` on a 64-bit platform. -/
def maxInt : Nat := 2 ^ 63 - 1

/-- The function `dropCR` of package `bufio`: drops one terminal carriage return. -/
def dropCR (data : List Char) : List Char :=
  if data.getLast? = some '\r' then data.dropLast else data

/-- The split function `bufio.ScanLines`: the advance and the token (`none` is the nil token that
requests more data). -/
def ScanLines (data : List Char) (atEOF : Bool) : Nat × Option (List Char) :=
  if atEOF && data.isEmpty then (0, none)
  else
    let i := data.indexOf '\n'
    if i < data.length then (i + 1, some (dropCR (data.take i)))
    else if atEOF then (data.length, some (dropCR data))
    else (0, none)

/-- The state of a `bufio.Scanner`: `buf` is the unread window `s.buf[s.start:s.end]`
(so `s.end = start + buf.length`), `cap` is `len(s.buf)`, `err` is `s.err != nil`
(`io.EOF` or `ErrTooLong`; `Scan` never distinguishes them), `token` is what `Text()` returns.
The field `done` is only set on `ErrFinalToken`, which `ScanLines` never returns. -/
structure Scanner where
  buf : List Char
  start : Nat
  cap : Nat
  err : Bool
  token : List Char
deriving DecidableEq, Repr

/-- The result of `bufio.NewScanner(file)`. -/
def NewScanner : Scanner := { buf := [], start := 0, cap := 0, err := false, token := [] }

/-- The method `Text`. -/
def Scanner.Text (s : Scanner) : GoString := s.token

/-- The test `s.end > s.start || s.err != nil` and the call of the split function under it. -/
def Scanner.split (s : Scanner) : Option (Nat × Option (List Char)) :=
  if !s.buf.isEmpty || s.err then some (ScanLines s.buf s.err) else none

/-- The calls `s.advance(n)` and `s.token = token` (`ScanLines` never advances out of range). -/
def Scanner.advance (s : Scanner) (n : Nat) (token : List Char) : Scanner :=
  { s with buf := s.buf.drop n, start := s.start + n, token := token }

/-- Shift data to the beginning of the buffer if there is lots of empty space or space is
needed. -/
def Scanner.shift (s : Scanner) : Scanner :=
  if s.start > 0 ∧ (s.start + s.buf.length = s.cap ∨ s.start > s.cap / 2)
  then { s with start := 0 } else s

/-- The test `s.end == len(s.buf)`: the buffer is full. -/
def Scanner.full (s : Scanner) : Bool := decide (s.start + s.buf.length = s.cap)

/-- The test `len(s.buf) >= s.maxTokenSize || len(s.buf) > maxInt/2` that raises `ErrTooLong`. -/
def Scanner.tooLong (s : Scanner) : Bool :=
  decide (s.cap ≥ MaxScanTokenSize) || decide (s.cap > maxInt / 2)

/-- The resize of a full buffer: double it (or start at `startBufSize`), capped by the maximum
token size; the data moves to the front. -/
def Scanner.grow (s : Scanner) : Scanner :=
  { s with cap := min (if s.cap * 2 = 0 then startBufSize else s.cap * 2) MaxScanTokenSize,
           start := 0 }

/-- One `s.r.Read(s.buf[s.end:len(s.buf)])`: the bytes are appended to the window, and `0, io.EOF`
is recorded by `setErr`. -/
def Scanner.fill (f : File) (s : Scanner) : File × Scanner :=
  let r := f.Read (s.cap - (s.start + s.buf.length))
  if r.1.isEmpty then (r.2, { s with err := true }) else (r.2, { s with buf := s.buf ++ r.1 })

/-- The loop of `Scanner.Scan`, one iteration per unit of fuel; `none` when the fuel is used up.
Each iteration: try to split a token off the buffered window; otherwise stop if an error is
recorded; otherwise shift, grow, and read once from the file. -/
def Scanner.scanLoop : Nat → File → Scanner → Option (Bool × File × Scanner)
  | 0, _, _ => none
  | fuel + 1, f, s =>
    match s.split with
    | some (adv, some tok) => some (true, f, s.advance adv tok)
    | r =>
      let s0 : Scanner :=
        match r with
        | some (adv, _) => s.advance adv []
        | none => s
      if s0.err then
        -- Shut it down.
        some (false, f, { s0 with buf := [], start := 0 })
      else
        let s1 := s0.shift
        if s1.full then
          if s1.tooLong then
            -- s.setErr(ErrTooLong); return false
            some (false, f, { s1 with err := true })
          else
            Scanner.scanLoop fuel (s1.grow.fill f).1 (s1.grow.fill f).2
        else
          Scanner.scanLoop fuel (s1.fill f).1 (s1.fill f).2

/-- The method `Scan`: every iteration that does not return reads at least one byte or records
an error, so the unread bytes of the file bound the number of iterations. -/
def Scanner.Scan (f : File) (s : Scanner) : Option (Bool × File × Scanner) :=
  Scanner.scanLoop (f.content.length - f.off + 2) f s

/-! ## The manifest tags -/

def tagVersion : GoString := "#EXT-X-VERSION".toList
def tagEndlist : GoString := "#EXT-X-ENDLIST".toList
def tagExtinf : GoString := "#EXTINF".toList

/-! ## The counting pass (main.go lines 166-185) -/

/-- How the counting pass can end. -/
inductive Counted where
  | versionError
  | panicked
  | outOfFuel
  | done (count : Nat) (f : File) (s : Scanner)
deriving DecidableEq, Repr

/-- The version test on one line (lines 170-176): `none` is the panic of `text[15:]` on a line of
14 bytes, `some false` the version error, `some true` a line that passes. -/
def versionCheck (text : GoString) : Option Bool :=
  if text.length ≥ 14 ∧ text.take 14 = tagVersion then
    if text.length < 15 then none
    else if text.drop 15 ≠ "3".toList then some false else some true
  else some true

/-- The first loop `for fileScanner.Scan() { ... }`; `count` is a `uint16`. -/
def countingPass : Nat → File → Scanner → Nat → Counted
  | 0, _, _, _ => .outOfFuel
  | fuel + 1, f, s, count =>
    match s.Scan f with
    | none => .outOfFuel
    | some (false, f1, s1) => .done count f1 s1
    | some (true, f1, s1) =>
      let text := s1.Text
      match versionCheck text with
      | none => .panicked
      | some false => .versionError
      | some true =>
        if text = tagEndlist then .done count f1 s1
        else if text.length ≥ 7 ∧ text.take 7 = tagExtinf then
          countingPass fuel f1 s1 ((count + 1) % 65536)
        else countingPass fuel f1 s1 count

/-! ## The extraction pass (main.go lines 187-204) -/

/-- How the extraction pass can end. -/
inductive Extracted where
  | panicked
  | outOfFuel
  | done (fileList : List GoString)
deriving DecidableEq, Repr

/-- The second loop: two `Scan` calls per iteration, the second one unchecked; the write
`fileList[i] = nextLine` panics when `i` is not below `len(fileList)`. -/
def extractionPass : Nat → File → Scanner → List GoString → Nat → Extracted
  | 0, _, _, _, _ => .outOfFuel
  | fuel + 1, f, s, fileList, i =>
    match s.Scan f with
    | none => .outOfFuel
    | some (false, _, _) => .done fileList
    | some (true, f1, s1) =>
      let text := s1.Text
      match s1.Scan f1 with
      | none => .outOfFuel
      | some (_, f2, s2) =>
        if text.length ≥ 7 ∧ text.take 7 = tagExtinf then
          let nextLine := s2.Text
          if nextLine = [] then extractionPass fuel f2 s2 fileList i
          else if i < fileList.length then
            extractionPass fuel f2 s2 (fileList.set i nextLine) (i + 1)
          else .panicked
        else extractionPass fuel f2 s2 fileList i

/-! ## The parse: both passes (main.go lines 162-207) -/

/-- How the manifest parse can end; `parsed count fileList` carries `count` of the counting pass
and the slice filled by the extraction pass. -/
inductive Parsed where
  | versionError
  | panicked
  | outOfFuel
  | parsed (count : Nat) (fileList : List GoString)
deriving DecidableEq, Repr

/-- Lines 162-204 on the bytes of the stored manifest: scanner creation, counting pass,
`file.Seek(0, 0)`, `make([]string, count, count)`, extraction pass with the same scanner. -/
def parseManifest (content : List Char) : Parsed :=
  match countingPass (content.length + 1) (File.open content) NewScanner 0 with
  | .versionError => .versionError
  | .panicked => .panicked
  | .outOfFuel => .outOfFuel
  | .done count f s =>
    match extractionPass (s.buf.length + content.length + 1) f.Seek0 s
        (List.replicate count []) 0 with
    | .panicked => .panicked
    | .outOfFuel => .outOfFuel
    | .done fileList => .parsed count fileList

/-- A manifest given by its lines, each written with a terminating newline. -/
def unlines : List GoString → List Char
  | [] => []
  | l :: ls => l ++ '\n' :: unlines ls

/-! ## Jobs and the job store (main.go lines 60-70, 89-140) -/

/-- The struct `Download`. -/
structure Download where
  Url : GoString
  Status : String
  SourceFile : GoString
  Id : GoString
  TotalFiles : Int
  DownloadedFiles : Int
  TSFiles : List GoString
deriving DecidableEq, Repr

def READY_TO_DOWNLOAD : String := "READY_TO_DOWNLOAD"
def DOWNLOADING : String := "DOWNLOADING"
def DOWNLOADED : String := "DOWNLOADED"

/-- The zero value of `Download`, what a map lookup gives for a missing key. -/
def Download.zero : Download :=
  { Url := [], Status := "", SourceFile := [], Id := [], TotalFiles := 0, DownloadedFiles := 0,
    TSFiles := [] }

/-- The global `responses`, a `map[string]Download`. -/
abbrev Store := GoString → Download

/-- The initial value `map[string]Download{}`. -/
def Store.empty : Store := fun _ => Download.zero

/-- What a handler answers: `c.String(code, body)`, `c.JSON(code, response)`, a run-time panic
(turned into an error response by the `Recover` middleware), or the fuel of the model used up. -/
inductive HttpResult where
  | text (code : Nat) (body : String)
  | json (code : Nat) (response : Download)
  | panicked
  | outOfFuel
deriving DecidableEq, Repr

/-- What `http.Get` answers: an error, or a response with its status code (`err == nil` for every
status code). -/
inductive GetResult where
  | transportError
  | response (statusCode : Nat)
deriving DecidableEq, Repr

/-- The collaborators of `HandlerPOSTDownload`: the outcome of `http.Get(url)`, the identifier
from `uuid.New()`, and whether `os.Mkdir`, `os.Create` and `io.Copy` succeed. -/
structure PostWorld where
  httpGet : GetResult
  folderName : GoString
  mkdirOk : Bool
  createOk : Bool
  copyOk : Bool

/-- The handler `HandlerPOSTDownload` (lines 97-140): the answer and the store after it. -/
def HandlerPOSTDownload (responses : Store) (w : PostWorld) (url : GoString) :
    HttpResult × Store :=
  if url = [] then (.text 400 "No URL provided", responses)
  else
    match w.httpGet with
    | .transportError => (.text 500 "Error downloading file", responses)
    | .response _ =>
      if !w.mkdirOk then (.text 500 "Error creating folder", responses)
      else if !w.createOk then (.text 500 "Error creating file", responses)
      else if !w.copyOk then (.text 500 "Error copying file", responses)
      else
        let download : Download :=
          { Url := url, Status := READY_TO_DOWNLOAD, SourceFile := "main.m3u8".toList,
            Id := w.folderName, TotalFiles := 0, DownloadedFiles := 0, TSFiles := [] }
        (.text 308 "Ready to download\n",
          fun k => if k = w.folderName then download else responses k)

/-! ## The download loop (main.go lines 209-244) -/

/-- The collaborators of the download loop, asked at loop index `i`: `http.Get(requestUrl)`,
`os.Create` of the file numbered `i`, and `io.Copy` into it. -/
structure World where
  httpGet : Nat → GoString → GetResult
  osCreate : Nat → Bool
  ioCopy : Nat → Bool

/-- The same collaborators with the status code of every response replaced by `c`; transport
errors and the outcomes of the file writes stay as they are. -/
def World.withStatus (w : World) (c : Nat → GoString → Nat) : World :=
  { w with
    httpGet := fun i address =>
      match w.httpGet i address with
      | .transportError => .transportError
      | .response _ => .response (c i address) }

/-- Lines 214-221, the address of a segment; `none` is the panic of `fileString[:4]` on fewer than
4 bytes, or of `fileString[:5]` on fewer than 5. -/
def requestUrl (url fileString : GoString) : Option GoString :=
  if fileString.length < 4 then none
  else if fileString.take 4 = "http".toList then some fileString
  else if fileString.length < 5 then none
  else if fileString.take 5 = "https".toList then some fileString
  else some (url ++ "/".toList ++ fileString)

/-- How the download loop ends: by a `return` inside it, or by running off the slice. -/
inductive LoopEnd where
  | returned (r : HttpResult)
  | completed (response : Download)
deriving DecidableEq, Repr

/-- What a run of the download loop does: how it ends, the `http.Get` calls it made in order
(loop index and address), and the value of `response` at the head of every iteration and at the
point where the loop is left. -/
structure LoopOut where
  ending : LoopEnd
  fetched : List (Nat × GoString)
  states : List Download
deriving DecidableEq, Repr

/-- The loop `for i, fileString := range fileList`, from index `i` on. -/
def downloadLoop (w : World) : List GoString → Nat → Download → LoopOut
  | [], _, response => { ending := .completed response, fetched := [], states := [response] }
  | fileString :: rest, i, response =>
    if fileString = [] then
      let out := downloadLoop w rest (i + 1) response
      { out with states := response :: out.states }
    else
      match requestUrl response.Url fileString with
      | none => { ending := .returned .panicked, fetched := [], states := [response, response] }
      | some address =>
        let response1 := { response with Status := DOWNLOADING }
        match w.httpGet i address with
        | .transportError =>
          { ending := .returned (.text 500 "Error downloading chunks"),
            fetched := [(i, address)], states := [response, response1] }
        | .response _ =>
          if !w.osCreate i then
            { ending := .returned (.text 500 "Error creating chunk file"),
              fetched := [(i, address)], states := [response, response1] }
          else if !w.ioCopy i then
            { ending := .returned (.text 500 "Error copying chunk file"),
              fetched := [(i, address)], states := [response, response1] }
          else
            let response2 := { response1 with DownloadedFiles := (i : Int) + 1 }
            let out := downloadLoop w rest (i + 1) response2
            { out with fetched := (i, address) :: out.fetched,
                       states := response :: out.states }

/-! ## The handler `HandlerGETStatus` (main.go lines 142-249) -/

/-- What a run of `HandlerGETStatus` does: its answer, the segment fetches it made, and the values
`response` took in the download loop. -/
structure StatusRun where
  result : HttpResult
  fetched : List (Nat × GoString)
  states : List Download
deriving DecidableEq, Repr

/-- The handler `HandlerGETStatus`: `download` is the query parameter, `manifest` what `os.Open`
finds under `downloads/<download>/main.m3u8` (`none`: the open fails). -/
def runStatus (responses : Store) (manifest : GoString → Option (List Char)) (w : World)
    (download : GoString) : StatusRun :=
  if download = [] then
    { result := .text 400 "No download provided", fetched := [], states := [] }
  else
    let response := responses download
    if response.Url = [] then { result := .text 308 "Not Found", fetched := [], states := [] }
    else
      match manifest download with
      | none => { result := .text 500 "Error reading file", fetched := [], states := [] }
      | some content =>
        match parseManifest content with
        | .versionError =>
          { result := .text 500 "Error with m3u8 version", fetched := [], states := [] }
        | .panicked => { result := .panicked, fetched := [], states := [] }
        | .outOfFuel => { result := .outOfFuel, fetched := [], states := [] }
        | .parsed count fileList =>
          let response1 := { response with TotalFiles := (count : Int), TSFiles := fileList }
          let out := downloadLoop w fileList 0 response1
          match out.ending with
          | .returned r => { result := r, fetched := out.fetched, states := out.states }
          | .completed response2 =>
            { result := .json 200 { response2 with Status := DOWNLOADED },
              fetched := out.fetched, states := out.states }

/-- The answer of `HandlerGETStatus`. -/
def HandlerGETStatus (responses : Store) (manifest : GoString → Option (List Char)) (w : World)
    (download : GoString) : HttpResult :=
  (runStatus responses manifest w download).result

/-! ## Reachable job stores -/

/-- The stores the program can hold: `responses` starts empty and is only ever written by
`HandlerPOSTDownload` (`HandlerGETStatus` works on a copy of the entry). -/
inductive Store.Reachable : Store → Prop where
  | empty : Store.Reachable Store.empty
  | post (responses : Store) (w : PostWorld) (url : GoString) :
      Store.Reachable responses → Store.Reachable (HandlerPOSTDownload responses w url).2

/-! ## The words of the specification -/

/-- The lines of a text, cut at each newline; a last line without newline counts when it is not
empty. The carriage return is still on the line. -/
def splitLines : List Char → List (List Char)
  | [] => []
  | c :: cs =>
    if c = '\n' then [] :: splitLines cs
    else
      match splitLines cs with
      | [] => [[c]]
      | l :: ls => (c :: l) :: ls

/-- The lines of a manifest: cut at newlines, one terminal carriage return dropped from each. -/
def manifestLines (content : List Char) : List GoString := (splitLines content).map dropCR

/-- The lines before the first line equal to `#EXT-X-ENDLIST`. -/
def beforeEndlist (ls : List GoString) : List GoString :=
  ls.takeWhile (fun l => l != tagEndlist)

/-- The directory of a URL in the words of the specification: the portion up to and including the
last path separator. -/
def specDirectory (sourceUrl : GoString) : GoString :=
  (sourceUrl.reverse.dropWhile (fun c => c != '/')).reverse

/-- The Segment Locator in the words of the specification (section 4.2): an absolute reference
unchanged, a relative one joined to the directory of `sourceUrl`. -/
def specLocator (sourceUrl reference : GoString) : GoString :=
  if startsWith reference "http".toList then reference else specDirectory sourceUrl ++ reference

/-! ## Notions used in the proofs -/

/-- The unread input as the scanner sees it: the buffered window, then the file from its
offset. -/
def Scanner.stream (f : File) (s : Scanner) : List Char := s.buf ++ f.content.drop f.off

/-- The first line of a text, up to its newline. -/
def firstLine (data : List Char) : List Char := data.takeWhile (fun c => c != '\n')

/-- What follows the first line and its newline. -/
def afterFirstLine (data : List Char) : List Char :=
  (data.dropWhile (fun c => c != '\n')).drop 1

/-- The states `Scan` keeps a scanner in while the file is only read through it: the window lies
inside the buffer, and a recorded error means the file is exhausted. -/
def Scanner.Ok (f : File) (s : Scanner) : Prop :=
  s.start + s.buf.length ≤ s.cap ∧ (s.err = true → f.content.length ≤ f.off)

/-- The number of bytes the scanner can still deliver: the buffered window, and the rest of the
file unless an error is recorded. -/
def Scanner.unread (f : File) (s : Scanner) : Nat :=
  s.buf.length + (if s.err then 0 else f.content.length - f.off)

/-- How the counting pass ends on a list of lines, without the scanner. -/
inductive LineCount where
  | versionError
  | panicked
  | done (count : Nat)
deriving DecidableEq, Repr

/-- The body of the counting pass (lines 169-184) folded over a list of lines. -/
def countLines : List GoString → Nat → LineCount
  | [], count => .done count
  | text :: rest, count =>
    match versionCheck text with
    | none => .panicked
    | some false => .versionError
    | some true =>
      if text = tagEndlist then .done count
      else if text.length ≥ 7 ∧ text.take 7 = tagExtinf then
        countLines rest ((count + 1) % 65536)
      else countLines rest count

/-! ## Concrete manifests, stores and collaborators -/

/-- The manifest of the end-to-end example of the specification (section 8). -/
def specManifestLines : List GoString :=
  ["#EXT-X-VERSION:3".toList, "#EXTINF:10,".toList, "a.ts".toList, "#EXTINF:10,".toList,
   "b.ts".toList, "#EXT-X-ENDLIST".toList]

/-- The base address of the Locator example of the specification. -/
def specBase : GoString := "https://cdn.example.com/show/index.m3u8".toList

/-- The store after one successful `HandlerPOSTDownload` of `specBase` that drew the job
identifier `job`. -/
def oneJobStore : Store :=
  (HandlerPOSTDownload Store.empty
    { httpGet := .response 200, folderName := "job".toList, mkdirOk := true, createOk := true,
      copyOk := true } specBase).2

/-- Collaborators under which every fetch answers `200` and every file write succeeds. -/
def allSucceed : World :=
  { httpGet := fun _ _ => .response 200, osCreate := fun _ => true, ioCopy := fun _ => true }

/-- Collaborators under which every fetch answers `404 Not Found` without a transport error. -/
def allNotFound : World :=
  { httpGet := fun _ _ => .response 404, osCreate := fun _ => true, ioCopy := fun _ => true }

/-- Collaborators under which the fetch at loop index 1 has a transport error and everything else
succeeds. -/
def secondFetchFails : World :=
  { httpGet := fun i _ => if i = 1 then .transportError else .response 200,
    osCreate := fun _ => true, ioCopy := fun _ => true }

/-- A manifest of three absolute segment references, the pairs starting on the first line. -/
def threeSegmentManifest : List Char :=
  unlines ["#EXTINF:10,".toList, "https://x/0.ts".toList, "#EXTINF:10,".toList,
    "https://x/1.ts".toList, "#EXTINF:10,".toList, "https://x/2.ts".toList, tagEndlist]

/-- A manifest with a second version line whose payload is `4`. -/
def versionFourManifest : List Char :=
  unlines ["#EXT-X-VERSION:3".toList, "#EXTINF:10,".toList, "a.ts".toList,
    "#EXT-X-VERSION:4".toList, tagEndlist]

/-- A manifest whose first line is 65536 bytes long, followed by a version line with
payload `4`. -/
def longLineManifest : List Char :=
  List.replicate MaxScanTokenSize 'a' ++ '\n' :: unlines ["#EXT-X-VERSION:4".toList]

/-! ## Lemmas: the segment slice keeps its length -/

theorem extractionPass_length : ∀ (fuel : Nat) (f : File) (s : Scanner) (fl : List GoString)
    (i : Nat) (out : List GoString),
    extractionPass fuel f s fl i = .done out → out.length = fl.length := by
  intro fuel
  induction fuel with
  | zero => intro f s fl i out h; simp [extractionPass] at h
  | succ n ih =>
    intro f s fl i out h
    unfold extractionPass at h
    split at h
    · simp at h
    · simp at h; rw [h]
    · split at h
      · simp at h
      · dsimp only at h
        split_ifs at h
        · exact ih _ _ _ _ _ h
        · have := ih _ _ _ _ _ h
          simpa using this
        · exact ih _ _ _ _ _ h

theorem parseManifest_length (content : List Char) (count : Nat) (fl : List GoString)
    (h : parseManifest content = .parsed count fl) : fl.length = count := by
  unfold parseManifest at h
  split at h <;> try simp at h
  split at h <;> try simp at h
  rename_i heq
  have := extractionPass_length _ _ _ _ _ _ heq
  rw [← h.2, this, ← h.1]; simp

/-! ## Lemmas: the job store and the download loop -/

theorem Store.Reachable.downloaded_zero {responses : Store} (h : Store.Reachable responses) :
    ∀ k, (responses k).DownloadedFiles = 0 := by
  induction h with
  | empty => intro k; rfl
  | post responses w url _ ih =>
    intro k
    unfold HandlerPOSTDownload
    by_cases hu : url = []
    · simp only [hu, if_true]; exact ih k
    · simp only [hu, if_false]
      cases w.httpGet with
      | transportError => exact ih k
      | response c =>
        dsimp only
        cases w.mkdirOk <;> cases w.createOk <;> cases w.copyOk <;>
          simp only [Bool.not_true, Bool.not_false, if_true, if_false, Bool.false_eq_true] <;>
          first
          | exact ih k
          | (by_cases hk : k = w.folderName
             · simp only [hk, if_true]
             · simp only [hk, if_false]; exact ih k)

theorem downloadLoop_states (w : World) : ∀ (l : List GoString) (i : Nat) (r : Download),
    r.DownloadedFiles ≤ i → (i : Int) + l.length ≤ r.TotalFiles →
    r.TotalFiles = r.TSFiles.length →
    (∀ x ∈ (downloadLoop w l i r).states,
      r.DownloadedFiles ≤ x.DownloadedFiles ∧ x.DownloadedFiles ≤ x.TotalFiles ∧
      x.TotalFiles = x.TSFiles.length) ∧
    List.Chain' (fun a b : Download => a.DownloadedFiles ≤ b.DownloadedFiles)
      (downloadLoop w l i r).states := by
  intro l
  induction l with
  | nil =>
    intro i r h1 h2 h3
    simp only [downloadLoop, List.mem_singleton, List.chain'_singleton, and_true]
    intro x hx
    subst hx
    simp at h2
    exact ⟨le_refl _, by omega, h3⟩
  | cons fileString rest ih =>
    intro i r h1 h2 h3
    have hlen : (i : Int) + 1 + (rest.length : Int) ≤ r.TotalFiles := by
      simp only [List.length_cons] at h2; push_cast at h2; omega
    have hr : r.DownloadedFiles ≤ r.DownloadedFiles ∧ r.DownloadedFiles ≤ r.TotalFiles ∧
        r.TotalFiles = r.TSFiles.length := ⟨le_refl _, by omega, h3⟩
    unfold downloadLoop
    by_cases hempty : fileString = []
    · rw [if_pos hempty]
      have := ih (i + 1) r (by push_cast; omega) (by push_cast; omega) h3
      refine ⟨?_, ?_⟩
      · intro x hx
        simp only [List.mem_cons] at hx
        rcases hx with hx | hx
        · subst hx; exact hr
        · exact this.1 x hx
      · rw [List.chain'_cons']
        refine ⟨?_, this.2⟩
        intro y hy
        exact (this.1 y (List.mem_of_mem_head? hy)).1
    · rw [if_neg hempty]
      cases requestUrl r.Url fileString with
      | none =>
        refine ⟨?_, by simp⟩
        intro x hx
        simp only [List.mem_cons, List.mem_singleton, List.not_mem_nil, or_false, or_self] at hx
        subst hx; exact hr
      | some address =>
        have two : ∀ x ∈ [r, { r with Status := DOWNLOADING }],
            r.DownloadedFiles ≤ x.DownloadedFiles ∧ x.DownloadedFiles ≤ x.TotalFiles ∧
            x.TotalFiles = x.TSFiles.length := by
          intro x hx
          simp only [List.mem_cons, List.mem_singleton, List.not_mem_nil, or_false] at hx
          rcases hx with hx | hx <;> subst hx <;> exact hr
        have chain2 : List.Chain' (fun a b : Download => a.DownloadedFiles ≤ b.DownloadedFiles)
            [r, { r with Status := DOWNLOADING }] := by simp
        dsimp only
        cases w.httpGet i address with
        | transportError => exact ⟨two, chain2⟩
        | response c =>
          dsimp only
          cases w.osCreate i with
          | false => exact ⟨two, chain2⟩
          | true =>
            cases w.ioCopy i with
            | false => exact ⟨two, chain2⟩
            | true =>
              have := ih (i + 1)
                { r with Status := DOWNLOADING, DownloadedFiles := (i : Int) + 1 }
                (by push_cast; omega) (by push_cast; exact hlen) h3
              refine ⟨?_, ?_⟩
              · intro x hx
                simp only [Bool.not_true, Bool.false_eq_true, if_false, List.mem_cons] at hx
                rcases hx with hx | hx
                · subst hx; exact hr
                · have hx2 := this.1 x hx
                  exact ⟨by have := hx2.1; simp only at this; omega, hx2.2⟩
              · simp only [Bool.not_true, Bool.false_eq_true, if_false]
                rw [List.chain'_cons']
                refine ⟨?_, this.2⟩
                intro y hy
                have hy2 := (this.1 y (List.mem_of_mem_head? hy)).1
                simp only at hy2; omega

theorem runStatus_cases (responses : Store) (manifest : GoString → Option (List Char))
    (w : World) (download : GoString) :
    ((runStatus responses manifest w download).states = [] ∧
      (runStatus responses manifest w download).fetched = []) ∨
    ∃ content count fileList, manifest download = some content ∧
      parseManifest content = .parsed count fileList ∧
      (runStatus responses manifest w download).states =
        (downloadLoop w fileList 0
          { responses download with TotalFiles := (count : Int), TSFiles := fileList }).states ∧
      (runStatus responses manifest w download).fetched =
        (downloadLoop w fileList 0
          { responses download with TotalFiles := (count : Int), TSFiles := fileList }).fetched ∧
      (runStatus responses manifest w download).result =
        match (downloadLoop w fileList 0
          { responses download with TotalFiles := (count : Int), TSFiles := fileList }).ending with
        | .returned r => r
        | .completed response2 => .json 200 { response2 with Status := DOWNLOADED } := by
  unfold runStatus
  by_cases hd : download = []
  · rw [if_pos hd]; exact Or.inl ⟨rfl, rfl⟩
  · rw [if_neg hd]
    dsimp only
    by_cases hu : (responses download).Url = []
    · rw [if_pos hu]; exact Or.inl ⟨rfl, rfl⟩
    · rw [if_neg hu]
      cases hm : manifest download with
      | none => exact Or.inl ⟨rfl, rfl⟩
      | some content =>
        dsimp only
        cases hp : parseManifest content with
        | versionError => exact Or.inl ⟨rfl, rfl⟩
        | panicked => exact Or.inl ⟨rfl, rfl⟩
        | outOfFuel => exact Or.inl ⟨rfl, rfl⟩
        | parsed count fileList =>
          refine Or.inr ⟨content, count, fileList, rfl, hp, ?_⟩
          dsimp only
          cases (downloadLoop w fileList 0
            { responses download with TotalFiles := (count : Int), TSFiles := fileList }).ending with
          | returned r => exact ⟨rfl, rfl, rfl⟩
          | completed r2 => exact ⟨rfl, rfl, rfl⟩

/-! ## Lemmas: lines of a text -/

theorem splitLines_eq_first (data : List Char) (h : data ≠ []) :
    splitLines data = firstLine data :: splitLines (afterFirstLine data) := by
  induction data with
  | nil => exact absurd rfl h
  | cons c cs ih =>
    by_cases hc : c = '\n'
    · subst hc
      simp [splitLines, firstLine, afterFirstLine]
    · have hc2 : (c != '\n') = true := by simpa using hc
      have e1 : firstLine (c :: cs) = c :: firstLine cs := by
        simp [firstLine, List.takeWhile_cons, hc2]
      have e2 : afterFirstLine (c :: cs) = afterFirstLine cs := by
        simp [afterFirstLine, List.dropWhile_cons, hc2]
      rw [e1, e2]
      conv_lhs => rw [splitLines]
      rw [if_neg hc]
      by_cases hcs : cs = []
      · subst hcs
        simp [splitLines, firstLine, afterFirstLine]
      · rw [ih hcs]

theorem indexOf_newline (data : List Char) :
    data.take (data.indexOf '\n') = firstLine data ∧
    data.drop (data.indexOf '\n' + 1) = afterFirstLine data ∧
    (data.indexOf '\n' < data.length ↔ '\n' ∈ data) := by
  refine ⟨?_, ?_, List.indexOf_lt_length⟩
  · induction data with
    | nil => simp [firstLine]
    | cons c cs ih =>
      by_cases hc : c = '\n'
      · subst hc; simp [firstLine]
      · have hc2 : (c != '\n') = true := by simpa using hc
        rw [List.indexOf_cons_ne _ hc]
        simp only [firstLine, List.take_succ_cons, List.takeWhile_cons, hc2, if_true]
        rw [ih]; rfl
  · induction data with
    | nil => simp [afterFirstLine]
    | cons c cs ih =>
      by_cases hc : c = '\n'
      · subst hc; simp [afterFirstLine]
      · have hc2 : (c != '\n') = true := by simpa using hc
        rw [List.indexOf_cons_ne _ hc]
        simp only [afterFirstLine, List.drop_succ_cons, List.dropWhile_cons, hc2, if_true]
        rw [ih]; rfl

theorem firstLine_append_of_mem (a b : List Char) (h : '\n' ∈ a) :
    firstLine (a ++ b) = firstLine a ∧ afterFirstLine (a ++ b) = afterFirstLine a ++ b := by
  induction a with
  | nil => simp at h
  | cons c cs ih =>
    by_cases hc : c = '\n'
    · subst hc; simp [firstLine, afterFirstLine]
    · have hc2 : (c != '\n') = true := by simpa using hc
      have hmem : '\n' ∈ cs := by
        rcases List.mem_cons.1 h with h | h
        · exact absurd h.symm hc
        · exact h
      have := ih hmem
      simp only [firstLine, afterFirstLine, List.cons_append, List.takeWhile_cons,
        List.dropWhile_cons, hc2, if_true] at this ⊢
      exact ⟨by rw [this.1], this.2⟩

theorem firstLine_of_not_mem (a : List Char) (h : '\n' ∉ a) :
    firstLine a = a ∧ afterFirstLine a = [] := by
  induction a with
  | nil => simp [firstLine, afterFirstLine]
  | cons c cs ih =>
    have hc : c ≠ '\n' := fun e => h (by simp [e])
    have hc2 : (c != '\n') = true := by simpa using hc
    have := ih (fun e => h (List.mem_cons_of_mem _ e))
    simp only [firstLine, afterFirstLine, List.takeWhile_cons, List.dropWhile_cons, hc2,
      if_true] at this ⊢
    exact ⟨by rw [this.1], this.2⟩

theorem firstLine_length_append (a b : List Char) (h : '\n' ∉ a) :
    a.length ≤ (firstLine (a ++ b)).length := by
  induction a with
  | nil => simp
  | cons c cs ih =>
    have hc : c ≠ '\n' := fun e => h (by simp [e])
    have hc2 : (c != '\n') = true := by simpa using hc
    have := ih (fun e => h (List.mem_cons_of_mem _ e))
    simp only [firstLine, List.cons_append, List.takeWhile_cons, hc2, if_true,
      List.length_cons] at this ⊢
    omega

theorem afterFirstLine_length (data : List Char) (h : data ≠ []) :
    (afterFirstLine data).length < data.length := by
  induction data with
  | nil => exact absurd rfl h
  | cons c cs ih =>
    by_cases hc : c = '\n'
    · subst hc; simp [afterFirstLine]
    · have hc2 : (c != '\n') = true := by simpa using hc
      simp only [afterFirstLine, List.dropWhile_cons, hc2, if_true, List.length_cons]
      by_cases hcs : cs = []
      · subst hcs; simp
      · have := ih hcs
        simp only [afterFirstLine] at this
        omega

theorem splitLines_append_newline (l rest : List Char) (h : '\n' ∉ l) :
    splitLines (l ++ '\n' :: rest) = l :: splitLines rest := by
  induction l with
  | nil => simp [splitLines]
  | cons c cs ih =>
    have hc : c ≠ '\n' := fun e => h (by simp [e])
    have := ih (fun e => h (List.mem_cons_of_mem _ e))
    rw [List.cons_append, splitLines, if_neg hc, this]

theorem splitLines_unlines (ls : List GoString) (h : ∀ l ∈ ls, '\n' ∉ l) :
    splitLines (unlines ls) = ls := by
  induction ls with
  | nil => rfl
  | cons l rest ih =>
    rw [unlines, splitLines_append_newline l _ (h l (List.mem_cons_self _ _)),
      ih (fun x hx => h x (List.mem_cons_of_mem _ hx))]

/-! ## Lemmas: the scanner delivers the lines of its input -/

theorem ScanLines_of_mem (data : List Char) (atEOF : Bool) (h : '\n' ∈ data) :
    ScanLines data atEOF = (data.indexOf '\n' + 1, some (dropCR (firstLine data))) := by
  have hne : data ≠ [] := by rintro rfl; simp at h
  have hlt := (indexOf_newline data).2.2.2 h
  unfold ScanLines
  have h1 : (atEOF && data.isEmpty) = false := by simp [hne]
  simp only [h1, Bool.false_eq_true, if_false, hlt, if_true, (indexOf_newline data).1]

theorem ScanLines_of_not_mem (data : List Char) (h : '\n' ∉ data) :
    ScanLines data false = (0, none) := by
  have hlt : ¬ data.indexOf '\n' < data.length := fun e => h ((indexOf_newline data).2.2.1 e)
  unfold ScanLines
  simp [hlt]

theorem ScanLines_eof_of_not_mem (data : List Char) (h : '\n' ∉ data) (hne : data ≠ []) :
    ScanLines data true = (data.length, some (dropCR data)) := by
  have hlt : ¬ data.indexOf '\n' < data.length := fun e => h ((indexOf_newline data).2.2.1 e)
  unfold ScanLines
  simp [hlt, hne]

theorem ScanLines_eof_nil : ScanLines [] true = (0, none) := by
  simp [ScanLines]

theorem take_append_drop_length (n : Nat) (l : List Char) :
    List.take n l ++ List.drop (List.take n l).length l = l := by
  rcases le_total n l.length with h | h
  · rw [List.length_take, Nat.min_eq_left h]; exact List.take_append_drop _ _
  · rw [List.take_of_length_le h]; simp

theorem fill_spec (f : File) (s : Scanner) (hlt : s.start + s.buf.length < s.cap)
    (herr : s.err = false) :
    (s.fill f).1.content = f.content ∧ Scanner.Ok (s.fill f).1 (s.fill f).2 ∧
    (s.fill f).2.stream (s.fill f).1 = s.stream f ∧
    (if (s.fill f).2.err then 1 else (s.fill f).1.content.length - (s.fill f).1.off + 2)
      ≤ f.content.length - f.off + 1 := by
  unfold Scanner.fill File.Read
  dsimp only
  by_cases hp : (List.take (s.cap - (s.start + s.buf.length)) (List.drop f.off f.content)) = []
  · have hemp : (List.take (s.cap - (s.start + s.buf.length))
        (List.drop f.off f.content)).isEmpty = true := by simp [hp]
    rw [if_pos hemp]
    have hdrop : List.drop f.off f.content = [] := by
      rcases List.take_eq_nil_iff.1 hp with h | h
      · omega
      · exact h
    have hoff : f.content.length ≤ f.off := List.drop_eq_nil_iff.1 hdrop
    refine ⟨rfl, ⟨by simp; omega, ?_⟩, ?_, by simp⟩
    · intro _; simp [hp]; exact hoff
    · simp [Scanner.stream, hp]
  · have hemp : ¬ (List.take (s.cap - (s.start + s.buf.length))
        (List.drop f.off f.content)).isEmpty = true := by simpa using hp
    rw [if_neg hemp]
    have hlen : 1 ≤ (List.take (s.cap - (s.start + s.buf.length))
        (List.drop f.off f.content)).length := by
      rcases h : List.take (s.cap - (s.start + s.buf.length)) (List.drop f.off f.content) with _ | ⟨a, l⟩
      · exact absurd h hp
      · simp
    have hlen2 : (List.take (s.cap - (s.start + s.buf.length))
        (List.drop f.off f.content)).length ≤ s.cap - (s.start + s.buf.length) :=
      List.length_take_le _ _
    have hlen3 : (List.take (s.cap - (s.start + s.buf.length))
        (List.drop f.off f.content)).length ≤ f.content.length - f.off := by
      have := List.length_take_le' (s.cap - (s.start + s.buf.length)) (List.drop f.off f.content)
      rw [List.length_drop] at this; exact this
    refine ⟨rfl, ⟨?_, ?_⟩, ?_, ?_⟩
    · simp only [List.length_append]; omega
    · intro h; simp only [herr] at h; exact absurd h (by simp)
    · simp only [Scanner.stream, List.append_assoc]
      congr 1
      rw [← List.drop_drop]
      exact take_append_drop_length _ _
    · simp only [herr, Bool.false_eq_true, if_false]
      omega

theorem scanLoop_succ_no_token (n : Nat) (f : File) (s s0 : Scanner)
    (h : (s.split = none ∧ s0 = s) ∨ ∃ adv, s.split = some (adv, none) ∧ s0 = s.advance adv []) :
    Scanner.scanLoop (n + 1) f s =
      if s0.err then some (false, f, { s0 with buf := [], start := 0 })
      else if s0.shift.full then
        if s0.shift.tooLong then some (false, f, { s0.shift with err := true })
        else Scanner.scanLoop n (s0.shift.grow.fill f).1 (s0.shift.grow.fill f).2
      else Scanner.scanLoop n (s0.shift.fill f).1 (s0.shift.fill f).2 := by
  rcases h with ⟨h1, h2⟩ | ⟨adv, h1, h2⟩
  · subst h2; rw [Scanner.scanLoop, h1]
  · subst h2; rw [Scanner.scanLoop, h1]

theorem scanLoop_spec : ∀ (fuel : Nat) (f : File) (s : Scanner), Scanner.Ok f s →
    (firstLine (s.stream f)).length < MaxScanTokenSize →
    (if s.err then 1 else f.content.length - f.off + 2) ≤ fuel →
    ∃ f1 s1, f1.content = f.content ∧ Scanner.Ok f1 s1 ∧
      Scanner.scanLoop fuel f s = some (decide (s.stream f ≠ []), f1, s1) ∧
      s1.stream f1 = afterFirstLine (s.stream f) ∧
      (s.stream f ≠ [] → s1.token = dropCR (firstLine (s.stream f))) := by
  intro fuel
  induction fuel with
  | zero => intro f s _ _ h; split_ifs at h <;> omega
  | succ n ih =>
    intro f s hok hshort hfuel
    by_cases hnl : '\n' ∈ s.buf
    · -- a full line is buffered
      have hne : s.buf ≠ [] := by rintro e; rw [e] at hnl; simp at hnl
      have hsplit : s.split = some (s.buf.indexOf '\n' + 1, some (dropCR (firstLine s.buf))) := by
        unfold Scanner.split
        have : (!s.buf.isEmpty || s.err) = true := by simp [hne]
        rw [if_pos this, ScanLines_of_mem _ _ hnl]
      have hstream : s.stream f ≠ [] := by simp [Scanner.stream, hne]
      have happ := firstLine_append_of_mem s.buf (f.content.drop f.off) hnl
      have hlt := (indexOf_newline s.buf).2.2.2 hnl
      refine ⟨f, s.advance (s.buf.indexOf '\n' + 1) (dropCR (firstLine s.buf)), rfl, ?_, ?_, ?_, ?_⟩
      · refine ⟨?_, hok.2⟩
        simp only [Scanner.advance, List.length_drop]
        have := hok.1; omega
      · rw [Scanner.scanLoop, hsplit]; simp [hstream]
      · simp only [Scanner.stream, Scanner.advance] at happ ⊢
        rw [happ.2, (indexOf_newline s.buf).2.1]
      · intro _
        simp only [Scanner.stream, Scanner.advance] at happ ⊢
        rw [happ.1]
    · by_cases herr : s.err = true
      · have hoff := hok.2 herr
        have hdrop : f.content.drop f.off = [] := List.drop_eq_nil_iff.2 hoff
        by_cases hbuf : s.buf = []
        · -- end of input
          have hsplit : s.split = some (0, none) := by
            unfold Scanner.split
            simp [herr, hbuf, ScanLines_eof_nil]
          have hstream : s.stream f = [] := by simp [Scanner.stream, hbuf, hdrop]
          refine ⟨f, { s.advance 0 [] with buf := [], start := 0 }, rfl, ?_, ?_, ?_, ?_⟩
          · exact ⟨by simp, fun _ => hoff⟩
          · rw [scanLoop_succ_no_token n f s (s.advance 0 []) (Or.inr ⟨0, hsplit, rfl⟩)]
            have : (s.advance 0 []).err = true := herr
            rw [if_pos this]; simp [hstream]
          · rw [hstream]; simp [Scanner.stream, hdrop, afterFirstLine]
          · intro h; exact absurd hstream h
        · -- a last line without newline
          have hsplit : s.split = some (s.buf.length, some (dropCR s.buf)) := by
            unfold Scanner.split
            have : (!s.buf.isEmpty || s.err) = true := by simp [herr]
            rw [if_pos this, herr, ScanLines_eof_of_not_mem _ hnl hbuf]
          have hstream : s.stream f = s.buf := by simp [Scanner.stream, hdrop]
          have hfl := firstLine_of_not_mem s.buf hnl
          refine ⟨f, s.advance s.buf.length (dropCR s.buf), rfl, ?_, ?_, ?_, ?_⟩
          · refine ⟨?_, hok.2⟩
            simp only [Scanner.advance, List.length_drop]
            have := hok.1; omega
          · rw [Scanner.scanLoop, hsplit]; simp [hstream, hbuf]
          · rw [hstream, hfl.2]; simp [Scanner.stream, Scanner.advance, hdrop]
          · intro _; rw [hstream, hfl.1]; rfl
      · -- more data is needed
        have herr2 : s.err = false := by simpa using herr
        obtain ⟨s0, hs0, hbuf0, hstart0, hcap0, herr0⟩ : ∃ s0 : Scanner,
            ((s.split = none ∧ s0 = s) ∨ ∃ adv, s.split = some (adv, none) ∧ s0 = s.advance adv [])
            ∧ s0.buf = s.buf ∧ s0.start = s.start ∧ s0.cap = s.cap ∧ s0.err = false := by
          by_cases hbuf : s.buf = []
          · refine ⟨s, Or.inl ⟨?_, rfl⟩, rfl, rfl, rfl, herr2⟩
            unfold Scanner.split; simp [hbuf, herr2]
          · refine ⟨s.advance 0 [], Or.inr ⟨0, ?_, rfl⟩, ?_, ?_, rfl, herr2⟩
            · unfold Scanner.split
              have : (!s.buf.isEmpty || s.err) = true := by simp [hbuf]
              rw [if_pos this, herr2, ScanLines_of_not_mem _ hnl]
            · simp [Scanner.advance]
            · simp [Scanner.advance]
        rw [scanLoop_succ_no_token n f s s0 hs0]
        have hne0 : ¬ s0.err = true := by simp [herr0]
        rw [if_neg hne0]
        -- the shifted scanner
        have hbuf1 : s0.shift.buf = s.buf := by
          unfold Scanner.shift; split_ifs <;> simp [hbuf0]
        have hcap1 : s0.shift.cap = s.cap := by
          unfold Scanner.shift; split_ifs <;> simp [hcap0]
        have herr1 : s0.shift.err = false := by
          unfold Scanner.shift; split_ifs <;> simp [herr0]
        have hle1 : s0.shift.start + s.buf.length ≤ s.cap := by
          have := hok.1
          unfold Scanner.shift; split_ifs <;> simp [hstart0] <;> omega
        have hfull1 : s0.shift.start + s.buf.length = s.cap → s0.shift.start = 0 := by
          unfold Scanner.shift
          split_ifs with hc
          · intro _; rfl
          · intro h
            simp only [hstart0, hbuf0, hcap0] at hc h ⊢
            by_contra hpos
            exact hc ⟨Nat.pos_of_ne_zero hpos, Or.inl h⟩
        have hlenshort : s.buf.length < MaxScanTokenSize :=
          lt_of_le_of_lt (firstLine_length_append s.buf (f.content.drop f.off) hnl) hshort
        have hfuel2 : f.content.length - f.off + 1 ≤ n := by
          simp only [herr2, Bool.false_eq_true, if_false] at hfuel; omega
        have finish : ∀ s2 : Scanner, s2.buf = s.buf → s2.err = false →
            s2.start + s2.buf.length < s2.cap →
            ∃ f1 s1, f1.content = f.content ∧ Scanner.Ok f1 s1 ∧
              Scanner.scanLoop n (s2.fill f).1 (s2.fill f).2
                = some (decide (s.stream f ≠ []), f1, s1) ∧
              s1.stream f1 = afterFirstLine (s.stream f) ∧
              (s.stream f ≠ [] → s1.token = dropCR (firstLine (s.stream f))) := by
          intro s2 hb2 he2 hlt2
          obtain ⟨hc, hok2, hst, hm⟩ := fill_spec f s2 hlt2 he2
          have hst2 : (s2.fill f).2.stream (s2.fill f).1 = s.stream f := by
            rw [hst]; simp [Scanner.stream, hb2]
          obtain ⟨f1, s1, h1, h2, h3, h4, h5⟩ := ih (s2.fill f).1 (s2.fill f).2 hok2
            (by rw [hst2]; exact hshort) (le_trans hm hfuel2)
          rw [hst2] at h3 h4 h5
          exact ⟨f1, s1, h1.trans hc, h2, h3, h4, h5⟩
        by_cases hfull : s0.shift.full = true
        · rw [if_pos hfull]
          have hfull2 : s0.shift.start + s.buf.length = s.cap := by
            simpa [Scanner.full, hbuf1, hcap1] using hfull
          have hstart1 := hfull1 hfull2
          have hcapsmall : s.cap < MaxScanTokenSize := by omega
          have hnot : ¬ s0.shift.tooLong = true := by
            simp only [Scanner.tooLong, hcap1, Bool.or_eq_true, decide_eq_true_eq, not_or]
            simp only [MaxScanTokenSize, maxInt] at hcapsmall ⊢
            constructor <;> omega
          rw [if_neg hnot]
          apply finish
          · simp [Scanner.grow, hbuf1]
          · simp [Scanner.grow, herr1]
          · simp only [Scanner.grow, hbuf1, hcap1]
            simp only [MaxScanTokenSize, startBufSize] at hcapsmall ⊢
            split_ifs <;> omega
        · rw [if_neg hfull]
          have hfull2 : s0.shift.start + s.buf.length ≠ s.cap := by
            simpa [Scanner.full, hbuf1, hcap1] using hfull
          apply finish _ hbuf1 herr1
          rw [hbuf1, hcap1]; omega

/-! ## Lemmas: the counting pass as a fold over the lines -/

theorem Scan_spec (f : File) (s : Scanner) (hok : Scanner.Ok f s)
    (hshort : (firstLine (s.stream f)).length < MaxScanTokenSize) :
    ∃ f1 s1, f1.content = f.content ∧ Scanner.Ok f1 s1 ∧
      s.Scan f = some (decide (s.stream f ≠ []), f1, s1) ∧
      s1.stream f1 = afterFirstLine (s.stream f) ∧
      (s.stream f ≠ [] → s1.token = dropCR (firstLine (s.stream f))) := by
  unfold Scanner.Scan
  apply scanLoop_spec _ f s hok hshort
  split_ifs <;> omega

theorem countingPass_spec : ∀ (fuel : Nat) (f : File) (s : Scanner) (count : Nat),
    Scanner.Ok f s → (∀ l ∈ splitLines (s.stream f), l.length < MaxScanTokenSize) →
    (s.stream f).length + 1 ≤ fuel →
    match countLines ((splitLines (s.stream f)).map dropCR) count with
    | .versionError => countingPass fuel f s count = .versionError
    | .panicked => countingPass fuel f s count = .panicked
    | .done c => ∃ f1 s1, countingPass fuel f s count = .done c f1 s1 := by
  intro fuel
  induction fuel with
  | zero => intro f s count _ _ h; omega
  | succ n ih =>
    intro f s count hok hshort hfuel
    by_cases hstream : s.stream f = []
    · obtain ⟨f1, s1, _, _, hscan, _, _⟩ := Scan_spec f s hok (by simp [hstream, firstLine, MaxScanTokenSize])
      rw [hstream]
      simp only [splitLines, List.map_nil, countLines]
      refine ⟨f1, s1, ?_⟩
      rw [countingPass, hscan]
      simp [hstream]
    · have hlines := splitLines_eq_first _ hstream
      have hfirst : (firstLine (s.stream f)).length < MaxScanTokenSize :=
        hshort _ (by rw [hlines]; exact List.mem_cons_self _ _)
      obtain ⟨f1, s1, _, hok1, hscan, hst1, htok⟩ := Scan_spec f s hok hfirst
      have htok1 := htok hstream
      have hrec := ih f1 s1
      have hshort1 : ∀ l ∈ splitLines (s1.stream f1), l.length < MaxScanTokenSize := by
        intro l hl
        apply hshort
        rw [hlines, ← hst1]
        exact List.mem_cons_of_mem _ hl
      have hfuel1 : (s1.stream f1).length + 1 ≤ n := by
        rw [hst1]
        have := afterFirstLine_length _ hstream
        omega
      have hdec : decide (s.stream f ≠ []) = true := by simp [hstream]
      rw [hdec] at hscan
      rw [hlines]
      simp only [List.map_cons, countLines]
      rw [countingPass, hscan]
      simp only [Scanner.Text, htok1]
      rw [← hst1]
      cases versionCheck (dropCR (firstLine (s.stream f))) with
      | none => rfl
      | some b =>
        cases b with
        | false => rfl
        | true =>
          dsimp only
          by_cases hend : dropCR (firstLine (s.stream f)) = tagEndlist
          · rw [if_pos hend, if_pos hend]
            exact ⟨f1, s1, rfl⟩
          · rw [if_neg hend, if_neg hend]
            split_ifs
            · exact hrec _ hok1 hshort1 hfuel1
            · exact hrec _ hok1 hshort1 hfuel1

theorem versionCheck_eq_none (text : GoString) : versionCheck text = none ↔ text = tagVersion := by
  unfold versionCheck
  constructor
  · intro h
    split_ifs at h with h1 h2
    have hlen : text.length = 14 := by omega
    rw [← h1.2, ← hlen, List.take_length]
  · rintro rfl
    decide

theorem versionCheck_eq_some_false (text : GoString) :
    versionCheck text = some false ↔
      ∃ sep n, text = tagVersion ++ sep :: n ∧ n ≠ "3".toList := by
  unfold versionCheck
  constructor
  · intro h
    split_ifs at h with h1 h2 h3
    · have hlen : 14 < text.length := by omega
      refine ⟨text.get ⟨14, hlen⟩, text.drop 15, ?_, h3⟩
      rw [← h1.2]
      have e1 : List.drop 14 text = text.get ⟨14, hlen⟩ :: List.drop 15 text := by
        rw [List.drop_eq_getElem_cons hlen]; rfl
      rw [← e1, List.take_append_drop]
    · simp at h
    · simp at h
  · rintro ⟨sep, n, rfl, hn⟩
    have hl : (tagVersion ++ sep :: n).length = 15 + n.length := by
      simp [tagVersion]; omega
    have ht : List.take 14 (tagVersion ++ sep :: n) = tagVersion := by
      rw [List.take_append_eq_append_take]; simp [tagVersion]
    have hd : List.drop 15 (tagVersion ++ sep :: n) = n := by
      rw [List.drop_append_eq_append_drop]; simp [tagVersion]
    rw [if_pos ⟨by omega, ht⟩, if_neg (by omega), hd, if_pos hn]

theorem countLines_versionError (ls : List GoString) : ∀ count : Nat,
    countLines ls count = .versionError ↔
      ∃ pre l post, ls = pre ++ l :: post ∧ tagEndlist ∉ pre ∧ tagVersion ∉ pre ∧
        ∃ sep n, l = tagVersion ++ sep :: n ∧ n ≠ "3".toList := by
  induction ls with
  | nil =>
    intro count
    simp [countLines]
  | cons text rest ih =>
    intro count
    constructor
    · intro h
      rw [countLines] at h
      cases hv : versionCheck text with
      | none => rw [hv] at h; simp at h
      | some b =>
        cases b with
        | false =>
          exact ⟨[], text, rest, rfl, by simp, by simp, (versionCheck_eq_some_false text).1 hv⟩
        | true =>
          rw [hv] at h
          dsimp only at h
          have hnv : text ≠ tagVersion := by
            intro e
            rw [(versionCheck_eq_none text).2 e] at hv
            simp at hv
          by_cases hend : text = tagEndlist
          · rw [if_pos hend] at h; simp at h
          · rw [if_neg hend] at h
            have hrest : ∃ c, countLines rest c = .versionError := by
              split_ifs at h
              · exact ⟨_, h⟩
              · exact ⟨_, h⟩
            obtain ⟨c, hc⟩ := hrest
            obtain ⟨pre, l, post, h1, h2, h3, h4⟩ := (ih c).1 hc
            refine ⟨text :: pre, l, post, by rw [h1]; rfl, ?_, ?_, h4⟩
            · simp only [List.mem_cons, not_or]; exact ⟨fun e => hend e.symm, h2⟩
            · simp only [List.mem_cons, not_or]; exact ⟨fun e => hnv e.symm, h3⟩
    · rintro ⟨pre, l, post, h1, h2, h3, h4⟩
      rw [countLines]
      cases pre with
      | nil =>
        simp only [List.nil_append, List.cons.injEq] at h1
        rw [h1.1, (versionCheck_eq_some_false l).2 h4]
      | cons t pre1 =>
        simp only [List.cons_append, List.cons.injEq] at h1
        simp only [List.mem_cons, not_or] at h2 h3
        rw [h1.1]
        cases hv : versionCheck t with
        | none => exact absurd ((versionCheck_eq_none t).1 hv).symm h3.1
        | some b =>
          cases b with
          | false => rfl
          | true =>
            dsimp only
            rw [if_neg (fun e => h2.1 e.symm)]
            have := fun c => (ih c).2 ⟨pre1, l, post, h1.2, h2.2, h3.2, h4⟩
            split_ifs
            · exact this _
            · exact this _

/-! ## Lemmas: the fuel of the model suffices -/

theorem ScanLines_advance (data : List Char) (atEOF : Bool) (adv : Nat)
    (tok : Option (List Char)) (h : ScanLines data atEOF = (adv, tok)) :
    (tok = none → adv = 0) ∧ (tok ≠ none → 1 ≤ adv ∧ adv ≤ data.length) := by
  unfold ScanLines at h
  dsimp only at h
  by_cases h1 : (atEOF && data.isEmpty) = true
  · rw [if_pos h1] at h
    simp only [Prod.mk.injEq] at h; simp [← h.1, ← h.2]
  · rw [if_neg h1] at h
    by_cases h2 : List.indexOf '\n' data < data.length
    · rw [if_pos h2] at h
      simp only [Prod.mk.injEq] at h
      refine ⟨fun e => by rw [← h.2] at e; simp at e, fun _ => ?_⟩
      rw [← h.1]; omega
    · rw [if_neg h2] at h
      by_cases h3 : atEOF = true
      · rw [if_pos h3] at h
        simp only [Prod.mk.injEq] at h
        refine ⟨fun e => by rw [← h.2] at e; simp at e, fun _ => ?_⟩
        rw [← h.1]
        have : data ≠ [] := by
          intro e; apply h1; simp [h3, e]
        have := List.length_pos.2 this
        omega
      · rw [if_neg h3] at h
        simp only [Prod.mk.injEq] at h; simp [← h.1, ← h.2]

theorem fill_total (f : File) (s : Scanner) (herr : s.err = false) :
    (s.fill f).1.content = f.content ∧
    (s.fill f).2.unread (s.fill f).1 ≤ s.unread f ∧
    (if (s.fill f).2.err then 1 else (s.fill f).1.content.length - (s.fill f).1.off + 2)
      ≤ f.content.length - f.off + 1 := by
  unfold Scanner.fill File.Read
  dsimp only
  by_cases hp : (List.take (s.cap - (s.start + s.buf.length)) (List.drop f.off f.content)) = []
  · have hemp : (List.take (s.cap - (s.start + s.buf.length))
        (List.drop f.off f.content)).isEmpty = true := by simp [hp]
    rw [if_pos hemp]
    refine ⟨rfl, ?_, by simp⟩
    simp [Scanner.unread, herr]
  · have hemp : ¬ (List.take (s.cap - (s.start + s.buf.length))
        (List.drop f.off f.content)).isEmpty = true := by simpa using hp
    rw [if_neg hemp]
    have hlen : 1 ≤ (List.take (s.cap - (s.start + s.buf.length))
        (List.drop f.off f.content)).length := by
      rcases h : List.take (s.cap - (s.start + s.buf.length)) (List.drop f.off f.content) with _ | ⟨a, l⟩
      · exact absurd h hp
      · simp
    have hlen3 : (List.take (s.cap - (s.start + s.buf.length))
        (List.drop f.off f.content)).length ≤ f.content.length - f.off := by
      have := List.length_take_le' (s.cap - (s.start + s.buf.length)) (List.drop f.off f.content)
      rw [List.length_drop] at this; exact this
    refine ⟨rfl, ?_, ?_⟩
    · simp only [Scanner.unread, herr, Bool.false_eq_true, if_false, List.length_append]
      omega
    · simp only [herr, Bool.false_eq_true, if_false]
      omega

theorem scanLoop_total : ∀ (fuel : Nat) (f : File) (s : Scanner),
    (if s.err then 1 else f.content.length - f.off + 2) ≤ fuel →
    ∃ b f1 s1, Scanner.scanLoop fuel f s = some (b, f1, s1) ∧ f1.content = f.content ∧
      s1.unread f1 + (if b then 1 else 0) ≤ s.unread f := by
  intro fuel
  induction fuel with
  | zero => intro f s h; split_ifs at h <;> omega
  | succ n ih =>
    intro f s hfuel
    have tail : ∀ s0 : Scanner, s0.buf = s.buf → s0.err = s.err →
        ∃ b f1 s1,
          (if s0.err then some (false, f, { s0 with buf := [], start := 0 })
           else if s0.shift.full then
             if s0.shift.tooLong then some (false, f, { s0.shift with err := true })
             else Scanner.scanLoop n (s0.shift.grow.fill f).1 (s0.shift.grow.fill f).2
           else Scanner.scanLoop n (s0.shift.fill f).1 (s0.shift.fill f).2)
            = some (b, f1, s1) ∧ f1.content = f.content ∧
          s1.unread f1 + (if b then 1 else 0) ≤ s.unread f := by
      intro s0 hb he
      have hbuf1 : s0.shift.buf = s.buf := by
        unfold Scanner.shift; split_ifs <;> simp [hb]
      have herr1 : s0.shift.err = s.err := by
        unfold Scanner.shift; split_ifs <;> simp [he]
      by_cases herr : s.err = true
      · rw [if_pos (he.trans herr)]
        exact ⟨false, f, _, rfl, rfl, by simp [Scanner.unread, he, herr]⟩
      · have herr2 : s.err = false := by simpa using herr
        rw [if_neg (by rw [he]; exact herr)]
        have hfuel2 : f.content.length - f.off + 1 ≤ n := by
          simp only [herr2, Bool.false_eq_true, if_false] at hfuel; omega
        have finish : ∀ s2 : Scanner, s2.buf = s.buf → s2.err = false →
            ∃ b f1 s1, Scanner.scanLoop n (s2.fill f).1 (s2.fill f).2 = some (b, f1, s1) ∧
              f1.content = f.content ∧ s1.unread f1 + (if b then 1 else 0) ≤ s.unread f := by
          intro s2 hb2 he2
          obtain ⟨hc, hu, hm⟩ := fill_total f s2 he2
          obtain ⟨b, f1, s1, h1, h2, h3⟩ := ih (s2.fill f).1 (s2.fill f).2 (le_trans hm hfuel2)
          refine ⟨b, f1, s1, h1, h2.trans hc, le_trans h3 (le_trans hu ?_)⟩
          simp [Scanner.unread, hb2, he2, herr2]
        by_cases hfull : s0.shift.full = true
        · rw [if_pos hfull]
          by_cases hlong : s0.shift.tooLong = true
          · rw [if_pos hlong]
            refine ⟨false, f, _, rfl, rfl, ?_⟩
            simp [Scanner.unread, hbuf1]
          · rw [if_neg hlong]
            exact finish _ (by simp [Scanner.grow, hbuf1]) (by simp [Scanner.grow, herr1, herr2])
        · rw [if_neg hfull]
          exact finish _ hbuf1 (by rw [herr1, herr2])
    cases hsp : s.split with
    | none =>
      rw [scanLoop_succ_no_token n f s s (Or.inl ⟨hsp, rfl⟩)]
      exact tail s rfl rfl
    | some p =>
      obtain ⟨adv, tok⟩ := p
      have hsl : ScanLines s.buf s.err = (adv, tok) := by
        unfold Scanner.split at hsp
        split_ifs at hsp
        simpa using hsp
      have hadv := ScanLines_advance _ _ _ _ hsl
      cases tok with
      | none =>
        rw [scanLoop_succ_no_token n f s (s.advance adv []) (Or.inr ⟨adv, hsp, rfl⟩)]
        have h0 := hadv.1 rfl
        exact tail _ (by simp [Scanner.advance, h0]) rfl
      | some t =>
        refine ⟨true, f, s.advance adv t, ?_, rfl, ?_⟩
        · rw [Scanner.scanLoop, hsp]
        · have := hadv.2 (by simp)
          simp only [Scanner.unread, Scanner.advance, List.length_drop, if_true]
          omega

theorem Scan_total (f : File) (s : Scanner) :
    ∃ b f1 s1, s.Scan f = some (b, f1, s1) ∧ f1.content = f.content ∧
      s1.unread f1 + (if b then 1 else 0) ≤ s.unread f := by
  unfold Scanner.Scan
  apply scanLoop_total
  split_ifs <;> omega

theorem countingPass_total : ∀ (fuel : Nat) (f : File) (s : Scanner) (count : Nat),
    s.unread f + 1 ≤ fuel →
    countingPass fuel f s count ≠ .outOfFuel ∧
    ∀ c f1 s1, countingPass fuel f s count = .done c f1 s1 →
      f1.content = f.content ∧ s1.unread f1 ≤ s.unread f := by
  intro fuel
  induction fuel with
  | zero => intro f s count h; omega
  | succ n ih =>
    intro f s count hfuel
    obtain ⟨b, f1, s1, hscan, hc, hu⟩ := Scan_total f s
    rw [countingPass, hscan]
    cases b with
    | false =>
      simp only [Bool.false_eq_true, if_false, add_zero] at hu
      refine ⟨by simp, ?_⟩
      intro c f2 s2 h
      simp only [Counted.done.injEq] at h
      rw [← h.2.1, ← h.2.2]
      exact ⟨hc, hu⟩
    | true =>
      simp only [if_true] at hu
      have hrec := fun c => ih f1 s1 c (by omega)
      dsimp only
      cases versionCheck s1.Text with
      | none => simp
      | some v =>
        cases v with
        | false => simp
        | true =>
          dsimp only
          split_ifs
          · refine ⟨by simp, ?_⟩
            intro c f2 s2 h
            simp only [Counted.done.injEq] at h
            rw [← h.2.1, ← h.2.2]
            exact ⟨hc, by omega⟩
          · refine ⟨(hrec _).1, ?_⟩
            intro c f2 s2 h
            have := (hrec _).2 c f2 s2 h
            exact ⟨this.1.trans hc, by omega⟩
          · refine ⟨(hrec _).1, ?_⟩
            intro c f2 s2 h
            have := (hrec _).2 c f2 s2 h
            exact ⟨this.1.trans hc, by omega⟩

theorem extractionPass_total : ∀ (fuel : Nat) (f : File) (s : Scanner) (fl : List GoString)
    (i : Nat), s.unread f + 1 ≤ fuel → extractionPass fuel f s fl i ≠ .outOfFuel := by
  intro fuel
  induction fuel with
  | zero => intro f s fl i h; omega
  | succ n ih =>
    intro f s fl i hfuel
    obtain ⟨b, f1, s1, hscan, _, hu⟩ := Scan_total f s
    rw [extractionPass, hscan]
    cases b with
    | false => simp
    | true =>
      simp only [if_true] at hu
      obtain ⟨b2, f2, s2, hscan2, _, hu2⟩ := Scan_total f1 s1
      dsimp only
      rw [hscan2]
      dsimp only
      have hrec := fun fl i => ih f2 s2 fl i (by omega)
      split_ifs
      · exact hrec _ _
      · exact hrec _ _
      · simp
      · exact hrec _ _

/-- The model of the parse never runs out of fuel: on every manifest it ends with the version
error, a panic, or a count and a segment slice. -/
theorem parseManifest_total (content : List Char) : parseManifest content ≠ .outOfFuel := by
  have h1 := countingPass_total (content.length + 1) (File.open content) NewScanner 0
    (by simp [Scanner.unread, NewScanner, File.open])
  unfold parseManifest
  cases hcp : countingPass (content.length + 1) (File.open content) NewScanner 0 with
  | versionError => simp
  | panicked => simp
  | outOfFuel => exact absurd hcp h1.1
  | done c f s =>
    have h2 := h1.2 c f s hcp
    have h3 := extractionPass_total (s.buf.length + content.length + 1) f.Seek0 s
      (List.replicate c []) 0 (by
        have : f.content.length = content.length := by rw [h2.1]; rfl
        simp only [Scanner.unread, File.Seek0, this]
        split_ifs <;> omega)
    dsimp only
    cases hep : extractionPass (s.buf.length + content.length + 1) f.Seek0 s
        (List.replicate c []) 0 with
    | panicked => simp
    | outOfFuel => exact absurd hep h3
    | done fl => simp

theorem downloadLoop_ending (w : World) : ∀ (l : List GoString) (i : Nat) (r : Download),
    (downloadLoop w l i r).ending ≠ .returned .outOfFuel := by
  intro l
  induction l with
  | nil => intro i r; simp [downloadLoop]
  | cons fileString rest ih =>
    intro i r
    unfold downloadLoop
    by_cases hempty : fileString = []
    · rw [if_pos hempty]; exact ih _ _
    · rw [if_neg hempty]
      cases requestUrl r.Url fileString with
      | none => simp
      | some address =>
        dsimp only
        cases w.httpGet i address with
        | transportError => simp
        | response c =>
          dsimp only
          cases w.osCreate i with
          | false => simp
          | true =>
            cases w.ioCopy i with
            | false => simp
            | true => exact ih _ _

/-- The model of `HandlerGETStatus` never runs out of fuel: every run ends with an answer of the
handler or with a panic. -/
theorem HandlerGETStatus_total (responses : Store) (manifest : GoString → Option (List Char))
    (w : World) (download : GoString) :
    HandlerGETStatus responses manifest w download ≠ .outOfFuel := by
  unfold HandlerGETStatus runStatus
  by_cases hd : download = []
  · rw [if_pos hd]; simp
  · rw [if_neg hd]
    dsimp only
    by_cases hu : (responses download).Url = []
    · rw [if_pos hu]; simp
    · rw [if_neg hu]
      cases manifest download with
      | none => simp
      | some content =>
        dsimp only
        cases hp : parseManifest content with
        | versionError => simp
        | panicked => simp
        | outOfFuel => exact absurd hp (parseManifest_total content)
        | parsed count fileList =>
          dsimp only
          have hend := downloadLoop_ending w fileList 0
            { responses download with TotalFiles := (count : Int), TSFiles := fileList }
          cases he : (downloadLoop w fileList 0
            { responses download with TotalFiles := (count : Int), TSFiles := fileList }).ending with
          | returned r =>
            dsimp only
            intro e
            apply hend
            rw [he, e]
          | completed r2 => simp

/-! ## Lemmas: the version error -/

theorem parseManifest_versionError_iff (content : List Char)
    (hshort : ∀ l ∈ splitLines content, l.length < MaxScanTokenSize) :
    parseManifest content = .versionError ↔
      countLines (manifestLines content) 0 = .versionError := by
  have hstream : NewScanner.stream (File.open content) = content := by
    simp [Scanner.stream, NewScanner, File.open]
  have hspec := countingPass_spec (content.length + 1) (File.open content) NewScanner 0
    ⟨by simp [NewScanner], by simp [NewScanner]⟩ (by rw [hstream]; exact hshort)
    (by rw [hstream])
  rw [hstream] at hspec
  unfold manifestLines
  unfold parseManifest
  cases hcl : countLines (List.map dropCR (splitLines content)) 0 with
  | versionError =>
    rw [hcl] at hspec
    simp only at hspec
    rw [hspec]
    simp
  | panicked =>
    rw [hcl] at hspec
    simp only at hspec
    rw [hspec]
    simp
  | done c =>
    rw [hcl] at hspec
    obtain ⟨f1, s1, h⟩ := hspec
    rw [h]
    simp only [reduceCtorEq, iff_false]
    split <;> simp

theorem parseManifest_versionError_exact (content : List Char)
    (hshort : ∀ l ∈ splitLines content, l.length < MaxScanTokenSize) :
    parseManifest content = .versionError ↔
      ∃ pre l post, manifestLines content = pre ++ l :: post ∧
        tagEndlist ∉ pre ∧ tagVersion ∉ pre ∧
        ∃ sep n, l = tagVersion ++ sep :: n ∧ n ≠ "3".toList := by
  rw [parseManifest_versionError_iff content hshort]
  exact countLines_versionError _ 0

/-! ## Lemmas: a line beyond the token limit stops the scanner -/

theorem firstLine_length_lt_of_mem (a : List Char) (h : '\n' ∈ a) :
    (firstLine a).length < a.length := by
  induction a with
  | nil => simp at h
  | cons c cs ih =>
    by_cases hc : c = '\n'
    · subst hc; simp [firstLine]
    · have hc2 : (c != '\n') = true := by simpa using hc
      have hmem : '\n' ∈ cs := by
        rcases List.mem_cons.1 h with h | h
        · exact absurd h.symm hc
        · exact h
      have := ih hmem
      simp only [firstLine, List.takeWhile_cons, hc2, if_true, List.length_cons] at this ⊢
      omega

theorem firstLine_length_le (a : List Char) : (firstLine a).length ≤ a.length := by
  unfold firstLine
  exact (List.takeWhile_sublist _).length_le

theorem fill_err (f : File) (s : Scanner) (hlt : s.start + s.buf.length < s.cap)
    (herr : s.err = false) (h : (s.fill f).2.err = true) : s.stream f = s.buf := by
  unfold Scanner.fill File.Read at h
  dsimp only at h
  by_cases hp : (List.take (s.cap - (s.start + s.buf.length)) (List.drop f.off f.content)) = []
  · have hdrop : List.drop f.off f.content = [] := by
      rcases List.take_eq_nil_iff.1 hp with h | h
      · omega
      · exact h
    simp [Scanner.stream, hdrop]
  · have hemp : ¬ (List.take (s.cap - (s.start + s.buf.length))
        (List.drop f.off f.content)).isEmpty = true := by simpa using hp
    rw [if_neg hemp] at h
    simp [herr] at h

theorem scanLoop_long_line : ∀ (fuel : Nat) (f : File) (s : Scanner) (b : Bool) (f1 : File)
    (s1 : Scanner), s.err = false → s.start + s.buf.length ≤ s.cap → s.cap ≤ MaxScanTokenSize →
    MaxScanTokenSize ≤ (firstLine (s.stream f)).length →
    Scanner.scanLoop fuel f s = some (b, f1, s1) → b = false := by
  intro fuel
  induction fuel with
  | zero => intro f s b f1 s1 _ _ _ _ h; simp [Scanner.scanLoop] at h
  | succ n ih =>
    intro f s b f1 s1 herr hle hcap hlong h
    have hnl : '\n' ∉ s.buf := by
      intro hmem
      have h1 := (firstLine_append_of_mem s.buf (f.content.drop f.off) hmem).1
      have h2 := firstLine_length_lt_of_mem s.buf hmem
      simp only [Scanner.stream] at hlong
      rw [h1] at hlong
      omega
    obtain ⟨s0, hs0, hbuf0, hstart0, hcap0, herr0⟩ : ∃ s0 : Scanner,
        ((s.split = none ∧ s0 = s) ∨ ∃ adv, s.split = some (adv, none) ∧ s0 = s.advance adv [])
        ∧ s0.buf = s.buf ∧ s0.start = s.start ∧ s0.cap = s.cap ∧ s0.err = false := by
      by_cases hbuf : s.buf = []
      · refine ⟨s, Or.inl ⟨?_, rfl⟩, rfl, rfl, rfl, herr⟩
        unfold Scanner.split; simp [hbuf, herr]
      · refine ⟨s.advance 0 [], Or.inr ⟨0, ?_, rfl⟩, ?_, ?_, rfl, herr⟩
        · unfold Scanner.split
          have : (!s.buf.isEmpty || s.err) = true := by simp [hbuf]
          rw [if_pos this, herr, ScanLines_of_not_mem _ hnl]
        · simp [Scanner.advance]
        · simp [Scanner.advance]
    rw [scanLoop_succ_no_token n f s s0 hs0] at h
    have hne0 : ¬ s0.err = true := by simp [herr0]
    rw [if_neg hne0] at h
    have hbuf1 : s0.shift.buf = s.buf := by
      unfold Scanner.shift; split_ifs <;> simp [hbuf0]
    have hcap1 : s0.shift.cap = s.cap := by
      unfold Scanner.shift; split_ifs <;> simp [hcap0]
    have herr1 : s0.shift.err = false := by
      unfold Scanner.shift; split_ifs <;> simp [herr0]
    have hle1 : s0.shift.start + s.buf.length ≤ s.cap := by
      unfold Scanner.shift; split_ifs <;> simp [hstart0] <;> omega
    have finish : ∀ s2 : Scanner, s2.buf = s.buf → s2.err = false →
        s2.start + s2.buf.length < s2.cap → s2.cap ≤ MaxScanTokenSize →
        Scanner.scanLoop n (s2.fill f).1 (s2.fill f).2 = some (b, f1, s1) → b = false := by
      intro s2 hb2 he2 hlt2 hcap2 hrun
      obtain ⟨_, hok2, hst, _⟩ := fill_spec f s2 hlt2 he2
      have hst2 : (s2.fill f).2.stream (s2.fill f).1 = s.stream f := by
        rw [hst]; simp [Scanner.stream, hb2]
      have hcapf : (s2.fill f).2.cap = s2.cap := by
        unfold Scanner.fill; dsimp only; split_ifs <;> rfl
      have herrf : (s2.fill f).2.err = false := by
        by_contra hc
        have hc2 : (s2.fill f).2.err = true := by simpa using hc
        have hfe := fill_err f s2 hlt2 he2 hc2
        have hsame : s2.stream f = s.stream f := by simp [Scanner.stream, hb2]
        have hs : s.stream f = s.buf := by rw [← hsame, hfe, hb2]
        have hlen : (firstLine (s.stream f)).length ≤ s.buf.length := by
          rw [hs]; exact firstLine_length_le _
        rw [hb2] at hlt2
        omega
      exact ih _ _ _ _ _ herrf hok2.1 (by rw [hcapf]; exact hcap2)
        (by rw [hst2]; exact hlong) hrun
    by_cases hfull : s0.shift.full = true
    · rw [if_pos hfull] at h
      by_cases hlongcap : s0.shift.tooLong = true
      · rw [if_pos hlongcap] at h
        simp only [Option.some.injEq, Prod.mk.injEq] at h
        exact h.1.symm
      · rw [if_neg hlongcap] at h
        have hcapsmall : s.cap < MaxScanTokenSize := by
          simp only [Scanner.tooLong, hcap1, Bool.or_eq_true, decide_eq_true_eq, not_or] at hlongcap
          omega
        have hfull2 : s0.shift.start + s.buf.length = s.cap := by
          simpa [Scanner.full, hbuf1, hcap1] using hfull
        refine finish _ (by simp [Scanner.grow, hbuf1]) (by simp [Scanner.grow, herr1]) ?_ ?_ h
        · simp only [Scanner.grow, hbuf1, hcap1]
          simp only [MaxScanTokenSize, startBufSize] at hcapsmall ⊢
          split_ifs <;> omega
        · simp only [Scanner.grow]
          exact Nat.min_le_right _ _
    · rw [if_neg hfull] at h
      have hfull2 : s0.shift.start + s.buf.length ≠ s.cap := by
        simpa [Scanner.full, hbuf1, hcap1] using hfull
      refine finish _ hbuf1 herr1 ?_ (by rw [hcap1]; exact hcap) h
      rw [hbuf1, hcap1]; omega

theorem firstLine_replicate (n : Nat) (rest : List Char) :
    firstLine (List.replicate n 'a' ++ '\n' :: rest) = List.replicate n 'a' ∧
    afterFirstLine (List.replicate n 'a' ++ '\n' :: rest) = rest := by
  induction n with
  | zero => simp [firstLine, afterFirstLine]
  | succ k ih =>
    simp only [List.replicate_succ, List.cons_append]
    simp only [firstLine, afterFirstLine] at ih ⊢
    rw [List.takeWhile_cons, List.dropWhile_cons]
    simp only [show (('a' : Char) != '\n') = true by decide, if_true]
    exact ⟨by rw [ih.1], ih.2⟩

theorem parseManifest_long_first_line (content : List Char)
    (h : MaxScanTokenSize ≤ (firstLine content).length) :
    parseManifest content ≠ .versionError := by
  obtain ⟨b, f1, s1, hscan, _, _⟩ := Scan_total (File.open content) NewScanner
  have hb : b = false := by
    refine scanLoop_long_line _ _ _ _ _ _ rfl (by simp [NewScanner]) (by simp [NewScanner]) ?_ hscan
    have : NewScanner.stream (File.open content) = content := by
      simp [Scanner.stream, NewScanner, File.open]
    rw [this]
    exact h
  subst hb
  unfold parseManifest
  rw [countingPass, hscan]
  dsimp only
  split <;> simp

theorem dropCR_replicate (n : Nat) : dropCR (List.replicate n 'a') = List.replicate n 'a' := by
  unfold dropCR
  rw [if_neg]
  rw [List.getLast?_replicate]
  split_ifs <;> simp

theorem manifestLines_replicate (n : Nat) (rest : List Char) :
    manifestLines (List.replicate n 'a' ++ '\n' :: rest) =
      List.replicate n 'a' :: manifestLines rest := by
  have h := firstLine_replicate n rest
  unfold manifestLines
  rw [splitLines_eq_first _ (by simp), h.1, h.2, List.map_cons, dropCR_replicate]

theorem longLine_facts :
    tagVersion ++ ':' :: "4".toList ∈ beforeEndlist (manifestLines longLineManifest) ∧
    parseManifest longLineManifest ≠ .versionError := by
  constructor
  · have hlines : manifestLines longLineManifest =
        [List.replicate MaxScanTokenSize 'a', tagVersion ++ ':' :: "4".toList] := by
      unfold longLineManifest
      rw [manifestLines_replicate]
      congr 1
    have hne : (List.replicate MaxScanTokenSize 'a' != tagEndlist) = true := by
      simp only [bne_iff_ne, ne_eq]
      intro e
      have h1 : (List.replicate MaxScanTokenSize 'a').length = tagEndlist.length := by rw [e]
      rw [List.length_replicate] at h1
      have h2 : tagEndlist.length = 14 := rfl
      rw [h2] at h1
      simp [MaxScanTokenSize] at h1
    have hne2 : (tagVersion ++ ':' :: "4".toList != tagEndlist) = true := by decide
    rw [hlines]
    unfold beforeEndlist
    rw [List.takeWhile_cons, if_pos hne, List.takeWhile_cons, if_pos hne2]
    simp
  · apply parseManifest_long_first_line
    unfold longLineManifest
    rw [(firstLine_replicate _ _).1, List.length_replicate]

/-! ## Lemmas: transport errors in the download loop -/

theorem downloadLoop_transport_error (w : World) : ∀ (l : List GoString) (i : Nat)
    (r : Download) (k j : Nat) (a : GoString),
    (downloadLoop w l i r).fetched[k]? = some (j, a) → w.httpGet j a = .transportError →
    k + 1 = (downloadLoop w l i r).fetched.length ∧
    (downloadLoop w l i r).ending = .returned (.text 500 "Error downloading chunks") := by
  intro l
  induction l with
  | nil => intro i r k j a h; simp [downloadLoop] at h
  | cons fileString rest ih =>
    intro i r k j a h herr
    unfold downloadLoop at h ⊢
    by_cases hempty : fileString = []
    · rw [if_pos hempty] at h ⊢
      exact ih _ _ _ _ _ h herr
    · rw [if_neg hempty] at h ⊢
      cases hreq : requestUrl r.Url fileString with
      | none => rw [hreq] at h; simp at h
      | some address =>
        rw [hreq] at h
        dsimp only at h ⊢
        cases hget : w.httpGet i address with
        | transportError =>
          rw [hget] at h
          dsimp only at h ⊢
          cases k with
          | zero => simp
          | succ k => simp at h
        | response c =>
          rw [hget] at h
          dsimp only at h ⊢
          have single : ([(i, address)] : List (Nat × GoString))[k]? = some (j, a) → False := by
            intro h0
            cases k with
            | zero =>
              simp only [List.getElem?_cons_zero, Option.some.injEq, Prod.mk.injEq] at h0
              rw [← h0.1, ← h0.2, hget] at herr
              simp at herr
            | succ k => simp at h0
          cases hc : w.osCreate i with
          | false => rw [hc] at h; exact absurd h (fun e => single e)
          | true =>
            rw [hc] at h
            cases hcp : w.ioCopy i with
            | false => rw [hcp] at h; exact absurd h (fun e => single e)
            | true =>
              rw [hcp] at h
              simp only [Bool.not_true, Bool.false_eq_true, if_false] at h ⊢
              cases k with
              | zero =>
                simp only [List.getElem?_cons_zero, Option.some.injEq, Prod.mk.injEq] at h
                rw [← h.1, ← h.2, hget] at herr
                simp at herr
              | succ k =>
                simp only [List.getElem?_cons_succ] at h
                have := ih _ _ _ _ _ h herr
                simp only [List.length_cons]
                exact ⟨by omega, this.2⟩

theorem downloadLoop_withStatus (w : World) (c : Nat → GoString → Nat) :
    ∀ (l : List GoString) (i : Nat) (r : Download),
    downloadLoop (w.withStatus c) l i r = downloadLoop w l i r := by
  intro l
  induction l with
  | nil => intro i r; rfl
  | cons fileString rest ih =>
    intro i r
    rw [downloadLoop, downloadLoop]
    by_cases hempty : fileString = []
    · rw [if_pos hempty, if_pos hempty, ih]
    · rw [if_neg hempty, if_neg hempty]
      cases requestUrl r.Url fileString with
      | none => rfl
      | some address =>
        dsimp only
        have hget : (w.withStatus c).httpGet i address =
            match w.httpGet i address with
            | .transportError => .transportError
            | .response _ => .response (c i address) := rfl
        have hcreate : (w.withStatus c).osCreate i = w.osCreate i := rfl
        have hcopy : (w.withStatus c).ioCopy i = w.ioCopy i := rfl
        rw [hget, hcreate, hcopy]
        cases w.httpGet i address with
        | transportError => rfl
        | response code =>
          dsimp only
          rw [ih]

theorem runStatus_withStatus (responses : Store) (manifest : GoString → Option (List Char))
    (w : World) (c : Nat → GoString → Nat) (download : GoString) :
    runStatus responses manifest (w.withStatus c) download =
      runStatus responses manifest w download := by
  unfold runStatus
  simp only [downloadLoop_withStatus]

/-! ## The claims -/

/-- C1: on the end-to-end manifest of the specification (`#EXT-X-VERSION:3`, two `#EXTINF` pairs
with references `a.ts` and `b.ts`, `#EXT-X-ENDLIST`) the parse of `HandlerGETStatus` counts 2 but
leaves both entries of the segment slice empty, whether or not the last line ends in a newline:
the extraction pass reads the lines in pairs from the re-read file and never sees an `#EXTINF`
line first, or finds the scanner already at end of input. -/
theorem C1_spec_manifest_yields_empty_segments :
    parseManifest (unlines specManifestLines) = .parsed 2 [[], []] ∧
    parseManifest
      "#EXT-X-VERSION:3\n#EXTINF:10,\na.ts\n#EXTINF:10,\nb.ts\n#EXT-X-ENDLIST".toList
      = .parsed 2 [[], []] := by
  constructor <;> decide

/-- C2: an `#EXTINF` line followed by a blank line, before `#EXT-X-ENDLIST`, is counted by the
counting pass: the parse gives `count = 1` and a segment slice holding one empty string. -/
theorem C2_blank_reference_is_counted :
    parseManifest (unlines ["#EXTINF:10,".toList, [], "#EXT-X-ENDLIST".toList])
      = .parsed 1 [[]] := by
  decide

/-- C3: lines after `#EXT-X-ENDLIST` change the parse. With `pre` one `#EXTINF` pair, the
manifest `pre ++ [#EXT-X-ENDLIST]` parses to the one segment `a.ts`. With `post` the lines
`#EXTINF:1,`, `#EXTINF:1,`, `b.ts` after the terminator, the extraction pass, which has no test
for the terminator, finds more `#EXTINF` lines than the counting pass counted, writes
`fileList[1]` past the end of the slice of length 1, and panics. -/
theorem C3_lines_after_endlist_change_the_parse :
    parseManifest (unlines (["#EXTINF:1,".toList, "a.ts".toList] ++ [tagEndlist]))
      = .parsed 1 ["a.ts".toList] ∧
    parseManifest (unlines (["#EXTINF:1,".toList, "a.ts".toList] ++ [tagEndlist] ++
        ["#EXTINF:1,".toList, "#EXTINF:1,".toList, "b.ts".toList]))
      = .panicked := by
  constructor <;> decide

/-- C4 (as stated, refuted): two manifests that have, before any `#EXT-X-ENDLIST`, a version
line `#EXT-X-VERSION:4` (tag, separator `:`, payload `4`), and whose parse does not end with the
version error. With the lines `#EXT-X-VERSION` and `#EXT-X-VERSION:4` the run panics on the first
line. With a first line of 65536 bytes followed by `#EXT-X-VERSION:4` the scanner gives up on the
first line (`ErrTooLong`) and the version line is never looked at. -/
theorem C4_version_line_without_version_error :
    ((∃ l ∈ beforeEndlist (manifestLines (unlines [tagVersion, "#EXT-X-VERSION:4".toList])),
        ∃ sep n, l = tagVersion ++ sep :: n ∧ n ≠ "3".toList) ∧
      parseManifest (unlines [tagVersion, "#EXT-X-VERSION:4".toList]) ≠ .versionError) ∧
    ((∃ l ∈ beforeEndlist (manifestLines longLineManifest),
        ∃ sep n, l = tagVersion ++ sep :: n ∧ n ≠ "3".toList) ∧
      parseManifest longLineManifest ≠ .versionError) :=
  ⟨⟨⟨tagVersion ++ ':' :: "4".toList, by decide, ':', "4".toList, rfl, by decide⟩, by decide⟩,
    ⟨⟨tagVersion ++ ':' :: "4".toList, longLine_facts.1, ':', "4".toList, rfl, by decide⟩,
      longLine_facts.2⟩⟩

/-- C4 (amended): for every manifest whose lines are shorter than the scanner's token limit of
65536 bytes and in which no line before the first `#EXT-X-ENDLIST` is exactly the bare tag
`#EXT-X-VERSION`, the parse fails with the version error if and only if some line made of the tag
`#EXT-X-VERSION`, one separator byte and a payload `n` occurs before the first `#EXT-X-ENDLIST`
line with `n` different from `3`. -/
theorem C4_version_error_iff (content : List Char)
    (hshort : ∀ l ∈ splitLines content, l.length < MaxScanTokenSize)
    (hbare : tagVersion ∉ beforeEndlist (manifestLines content)) :
    parseManifest content = .versionError ↔
      ∃ l ∈ beforeEndlist (manifestLines content),
        ∃ sep n, l = tagVersion ++ sep :: n ∧ n ≠ "3".toList := by
  rw [parseManifest_versionError_exact content hshort]
  have hsplit : manifestLines content = beforeEndlist (manifestLines content) ++
      (manifestLines content).dropWhile (fun l => l != tagEndlist) :=
    (List.takeWhile_append_dropWhile _ _).symm
  constructor
  · rintro ⟨pre, l, post, h1, h2, _, sep, n, h4, h5⟩
    refine ⟨l, ?_, sep, n, h4, h5⟩
    have hl : (l != tagEndlist) = true := by
      simp only [bne_iff_ne, ne_eq]
      intro e
      have : l.length = 14 := by rw [e]; rfl
      rw [h4] at this
      simp [tagVersion] at this
    have hpre : ∀ x ∈ pre, (x != tagEndlist) = true := by
      intro x hx
      simp only [bne_iff_ne, ne_eq]
      intro e
      exact h2 (e ▸ hx)
    unfold beforeEndlist
    rw [h1, List.takeWhile_append_of_pos hpre, List.takeWhile_cons, if_pos hl]
    simp
  · rintro ⟨l, hl, sep, n, h4, h5⟩
    obtain ⟨pre, post, hpp⟩ := List.append_of_mem hl
    have hsub : ∀ x ∈ pre, x ∈ beforeEndlist (manifestLines content) := by
      intro x hx; rw [hpp]; exact List.mem_append_left _ hx
    refine ⟨pre, l, post ++ (manifestLines content).dropWhile (fun l => l != tagEndlist),
      ?_, ?_, ?_, sep, n, h4, h5⟩
    · conv_lhs => rw [hsplit, hpp]
      simp
    · intro hmem
      have := List.mem_takeWhile_imp (hsub _ hmem)
      simp at this
    · intro hmem
      exact hbare (hsub _ hmem)

/-- C4 (amended), at the manifest `#EXT-X-VERSION:3`, `#EXTINF:10,`, `a.ts`,
`#EXT-X-VERSION:4`, `#EXT-X-ENDLIST`: the lines are short and none is the bare tag, and the parse
fails with the version error exactly when the stated line exists. -/
theorem C4_version_error_iff_witness :
    (∀ l ∈ splitLines versionFourManifest, l.length < MaxScanTokenSize) ∧
    tagVersion ∉ beforeEndlist (manifestLines versionFourManifest) ∧
    (parseManifest versionFourManifest = .versionError ↔
      ∃ l ∈ beforeEndlist (manifestLines versionFourManifest),
        ∃ sep n, l = tagVersion ++ sep :: n ∧ n ≠ "3".toList) :=
  ⟨by decide, by decide, C4_version_error_iff _ (by decide) (by decide)⟩

/-- C5 (as stated, refuted): for the base `https://cdn.example.com/show/index.m3u8` and the
reference `seg0.ts` the handler computes `https://cdn.example.com/show/index.m3u8/seg0.ts`, while
the Locator of the specification gives `https://cdn.example.com/show/seg0.ts`. -/
theorem C5_relative_reference_is_appended_to_whole_url :
    requestUrl specBase "seg0.ts".toList
      = some "https://cdn.example.com/show/index.m3u8/seg0.ts".toList ∧
    specLocator specBase "seg0.ts".toList = "https://cdn.example.com/show/seg0.ts".toList ∧
    requestUrl specBase "seg0.ts".toList ≠ some (specLocator specBase "seg0.ts".toList) := by
  refine ⟨?_, ?_, ?_⟩ <;> decide

/-- C5 (amended): for every `sourceUrl` and every segment reference of at least 5 bytes, the
fetch address computed in `HandlerGETStatus` is the reference itself when it begins with `http`,
and otherwise `sourceUrl`, a `/`, and the reference. -/
theorem C5_request_url (url fileString : GoString) (h : 5 ≤ fileString.length) :
    requestUrl url fileString =
      some (if fileString.take 4 = "http".toList then fileString
            else url ++ "/".toList ++ fileString) := by
  unfold requestUrl
  rw [if_neg (by omega)]
  by_cases h4 : fileString.take 4 = "http".toList
  · rw [if_pos h4, if_pos h4]
  · rw [if_neg h4, if_neg h4, if_neg (by omega)]
    have h5 : ¬ fileString.take 5 = "https".toList := by
      intro e
      apply h4
      have : List.take 4 (List.take 5 fileString) = List.take 4 fileString := by
        rw [List.take_take]; rfl
      rw [← this, e]; rfl
    rw [if_neg h5]

/-- C5 (amended), at the base `https://cdn.example.com/show/index.m3u8`: the reference
`seg0.ts` is appended to the whole base after a `/`, and so is every relative reference of at
least 5 bytes. -/
theorem C5_request_url_witness :
    5 ≤ "seg0.ts".toList.length ∧
    requestUrl specBase "seg0.ts".toList =
      some (if "seg0.ts".toList.take 4 = "http".toList then "seg0.ts".toList
            else specBase ++ "/".toList ++ "seg0.ts".toList) :=
  ⟨by decide, C5_request_url _ _ (by decide)⟩

/-- C6: for the reference `a.ts` (4 bytes, not `http`) the scheme test of `HandlerGETStatus`
evaluates `fileString[:5]` out of range: the resolution panics for every `sourceUrl`, and so does
the run of the handler on a manifest whose only segment is `a.ts`. -/
theorem C6_short_reference_panics (url : GoString) :
    requestUrl url "a.ts".toList = none ∧
    HandlerGETStatus oneJobStore
      (fun _ => some (unlines ["#EXTINF:10,".toList, "a.ts".toList, tagEndlist]))
      allSucceed "job".toList = .panicked := by
  constructor
  · simp [requestUrl]
  · decide

/-- C7: on the end-to-end manifest of the specification, with every fetch and every file write
succeeding, `HandlerGETStatus` answers a snapshot with status `DOWNLOADED`, `TotalFiles = 2` and
`DownloadedFiles = 0`, having fetched nothing. -/
theorem C7_spec_manifest_downloads_nothing :
    runStatus oneJobStore (fun _ => some (unlines specManifestLines)) allSucceed "job".toList
      = { result := .json 200
            { Url := specBase, Status := DOWNLOADED, SourceFile := "main.m3u8".toList,
              Id := "job".toList, TotalFiles := 2, DownloadedFiles := 0, TSFiles := [[], []] },
          fetched := [],
          states := List.replicate 3
            { Url := specBase, Status := READY_TO_DOWNLOAD, SourceFile := "main.m3u8".toList,
              Id := "job".toList, TotalFiles := 2, DownloadedFiles := 0, TSFiles := [[], []] } } := by
  decide

/-- C8 (as stated, refuted): when the fetch of the only segment is answered `404 Not Found`
(a response that is not 2xx, no transport error), the run of `HandlerGETStatus` makes that one
fetch and still reports the job with status `DOWNLOADED` and `DownloadedFiles = 1`. -/
theorem C8_not_found_response_is_downloaded :
    (runStatus oneJobStore
      (fun _ => some (unlines ["#EXTINF:10,".toList, "https://x/a.ts".toList, tagEndlist]))
      allNotFound "job".toList).fetched = [(0, "https://x/a.ts".toList)] ∧
    allNotFound.httpGet 0 "https://x/a.ts".toList = .response 404 ∧
    HandlerGETStatus oneJobStore
      (fun _ => some (unlines ["#EXTINF:10,".toList, "https://x/a.ts".toList, tagEndlist]))
      allNotFound "job".toList
      = .json 200
          { Url := specBase, Status := DOWNLOADED, SourceFile := "main.m3u8".toList,
            Id := "job".toList, TotalFiles := 1, DownloadedFiles := 1,
            TSFiles := ["https://x/a.ts".toList] } := by
  refine ⟨?_, ?_, ?_⟩ <;> decide

/-- C8 (amended): for every job store, every stored manifest and every behaviour of the
collaborators: (1) if `http.Get` returns a transport error for some attempted segment fetch, then
that fetch is the last one the run of `HandlerGETStatus` makes, and the run answers
`500 Error downloading chunks` instead of a snapshot with status `DOWNLOADED`; (2) the status
code of a response plays no part: replacing the status codes of all responses by any others
leaves the whole run unchanged (same answer, same fetches, same values of `response`), so a
response that is not 2xx is handled exactly as a `200`. -/
theorem C8_transport_error_stops_run (responses : Store)
    (manifest : GoString → Option (List Char)) (w : World) (download : GoString) :
    (∀ (k j : Nat) (a : GoString),
      (runStatus responses manifest w download).fetched[k]? = some (j, a) →
      w.httpGet j a = .transportError →
      k + 1 = (runStatus responses manifest w download).fetched.length ∧
      HandlerGETStatus responses manifest w download = .text 500 "Error downloading chunks") ∧
    (∀ c : Nat → GoString → Nat,
      runStatus responses manifest (w.withStatus c) download =
        runStatus responses manifest w download) := by
  refine ⟨?_, fun c => runStatus_withStatus responses manifest w c download⟩
  intro k j a hk herr
  unfold HandlerGETStatus
  rcases runStatus_cases responses manifest w download with h | ⟨content, count, fileList, _, _, _, hf, hr⟩
  · rw [h.2] at hk; simp at hk
  · rw [hf] at hk ⊢
    have := downloadLoop_transport_error w _ _ _ _ _ _ hk herr
    rw [hr, this.2]
    exact ⟨this.1, rfl⟩

/-- C8 (amended), on a manifest of three absolute segment references where the fetch at loop
index 1 has a transport error: the second fetch is the last of two, and the answer is
`500 Error downloading chunks`; and the run is the same when every response carries the
status `503` instead of `200`. -/
theorem C8_transport_error_stops_run_witness :
    (runStatus oneJobStore (fun _ => some threeSegmentManifest) secondFetchFails
        "job".toList).fetched[1]? = some (1, "https://x/1.ts".toList) ∧
    secondFetchFails.httpGet 1 "https://x/1.ts".toList = .transportError ∧
    (1 + 1 = (runStatus oneJobStore (fun _ => some threeSegmentManifest) secondFetchFails
        "job".toList).fetched.length ∧
      HandlerGETStatus oneJobStore (fun _ => some threeSegmentManifest) secondFetchFails
        "job".toList = .text 500 "Error downloading chunks") ∧
    runStatus oneJobStore (fun _ => some threeSegmentManifest)
        (secondFetchFails.withStatus (fun _ _ => 503)) "job".toList =
      runStatus oneJobStore (fun _ => some threeSegmentManifest) secondFetchFails
        "job".toList :=
  ⟨by decide, by decide,
    (C8_transport_error_stops_run oneJobStore (fun _ => some threeSegmentManifest)
      secondFetchFails "job".toList).1 1 1 "https://x/1.ts".toList (by decide) (by decide),
    (C8_transport_error_stops_run oneJobStore (fun _ => some threeSegmentManifest)
      secondFetchFails "job".toList).2 (fun _ _ => 503)⟩

/-- C9: for every reachable job store, every stored manifest, every behaviour of the fetch and
file collaborators and every request, each value that `response` takes in the download loop of
`HandlerGETStatus` satisfies `0 <= DownloadedFiles <= TotalFiles = len(TSFiles)`, and
`DownloadedFiles` never decreases from one of these values to the next. -/
theorem C9_progress_bounded_and_monotone (responses : Store)
    (hstore : Store.Reachable responses) (manifest : GoString → Option (List Char)) (w : World)
    (download : GoString) :
    (∀ r ∈ (runStatus responses manifest w download).states,
      0 ≤ r.DownloadedFiles ∧ r.DownloadedFiles ≤ r.TotalFiles ∧
      r.TotalFiles = r.TSFiles.length) ∧
    List.Chain' (fun a b : Download => a.DownloadedFiles ≤ b.DownloadedFiles)
      (runStatus responses manifest w download).states := by
  have hzero := hstore.downloaded_zero download
  rcases runStatus_cases responses manifest w download with h | ⟨content, count, fileList, _, hparse, hs, _, _⟩
  · rw [h.1]; simp
  · rw [hs]
    have hlen := parseManifest_length _ _ _ hparse
    have key := downloadLoop_states w fileList 0
      { responses download with TotalFiles := (count : Int), TSFiles := fileList }
      (by simp [hzero]) (by simp [hlen]) (by simp [hlen])
    refine ⟨?_, key.2⟩
    intro r hr
    have := key.1 r hr
    simp only [hzero] at this
    exact this

/-- C9, on a manifest of three segments where the second fetch fails: the store with one job is
reachable, and the values of `response` in the loop stay within bounds and never decrease. -/
theorem C9_progress_bounded_and_monotone_witness :
    Store.Reachable oneJobStore ∧
    (∀ r ∈ (runStatus oneJobStore (fun _ => some threeSegmentManifest) secondFetchFails
        "job".toList).states,
      0 ≤ r.DownloadedFiles ∧ r.DownloadedFiles ≤ r.TotalFiles ∧
      r.TotalFiles = r.TSFiles.length) ∧
    List.Chain' (fun a b : Download => a.DownloadedFiles ≤ b.DownloadedFiles)
      (runStatus oneJobStore (fun _ => some threeSegmentManifest) secondFetchFails
        "job".toList).states :=
  ⟨Store.Reachable.post _ _ _ Store.Reachable.empty,
    C9_progress_bounded_and_monotone oneJobStore
      (Store.Reachable.post _ _ _ Store.Reachable.empty) _ _ _⟩

/-- C10: the parse is not free of out-of-range accesses. On the manifest whose only line is
`#EXT-X-VERSION` (14 bytes) the counting pass slices `text[15:]` past the end and panics; on the
manifest `#EXT-X-ENDLIST`, `#EXTINF:1,`, `#EXTINF:1,`, `x.ts` the counting pass gives 0 and the
extraction pass writes `fileList[0]` into the empty slice and panics. -/
theorem C10_parse_panics :
    parseManifest (unlines [tagVersion]) = .panicked ∧
    parseManifest (unlines [tagEndlist, "#EXTINF:1,".toList, "#EXTINF:1,".toList,
      "x.ts".toList]) = .panicked := by
  constructor <;> decide

end M3u8
